import Mathlib

/-!
Verification of the in-memory file system simulator (`FileSystem.h` and the
indexed revision of the same class).  The C++ code keeps a pointer-based tree
of `FileNode`s plus a cursor (`currentDir`).  We embed the tree as a nested
inductive type and the cursor as the list of child indices leading from the
root to the current directory; parent pointers of the C++ correspond to
dropping the last index of that list.  Timestamps (`time(0)`) are passed in
explicitly as a `now : Nat` argument.
-/

set_option maxRecDepth 10000

/-- A `FileNode` of the C++ source: name, `isDirectory`, `content`,
`createdTime`, `modifiedTime`, and the owned children (in insertion order).
The parent pointer is represented implicitly by the cursor path. -/
inductive Node where
  | mk (name : String) (isDirectory : Bool) (content : String)
       (createdTime modifiedTime : Nat) (children : List Node)
deriving Repr

def Node.name : Node → String
  | .mk n _ _ _ _ _ => n

def Node.isDirectory : Node → Bool
  | .mk _ d _ _ _ _ => d

def Node.content : Node → String
  | .mk _ _ c _ _ _ => c

def Node.createdTime : Node → Nat
  | .mk _ _ _ t _ _ => t

def Node.modifiedTime : Node → Nat
  | .mk _ _ _ _ m _ => m

def Node.children : Node → List Node
  | .mk _ _ _ _ _ ch => ch

instance : Inhabited Node := ⟨.mk "" false "" 0 0 []⟩

/-- The `FileNode(n, isDir, p)` constructor: empty content, both timestamps
set to the current time, no children. -/
def Node.new (n : String) (isDir : Bool) (now : Nat) : Node :=
  .mk n isDir "" now now []

/-- `matchesAt pat s` holds when `pat` occurs at the very start of `s`
(character-exact, case-sensitive). -/
def matchesAt : List Char → List Char → Bool
  | [], _ => true
  | _ :: _, [] => false
  | a :: as, b :: bs => a == b && matchesAt as bs

/-- `containsPat pat s` holds when `pat` occurs somewhere in `s`; this is
`s.find(pat) != string::npos` of `std::string`. -/
def containsPat (pat : List Char) : List Char → Bool
  | [] => matchesAt pat []
  | b :: bs => matchesAt pat (b :: bs) || containsPat pat bs

/-- `strContains s pat` is the C++ `s.find(pat) != string::npos`. -/
def strContains (s pat : String) : Bool :=
  containsPat pat.toList s.toList

/-- Join a list of names with `/` (no leading or trailing separator); this is
what the reverse-index loop of `getCurrentPath` computes over the collected
path parts. -/
def joinSep : List String → String
  | [] => ""
  | [a] => a
  | a :: b :: rest => a ++ "/" ++ joinSep (b :: rest)

/-- Follow a child-index path down from a node (the pointer chase of the
C++, made explicit). -/
def getNode : Node → List Nat → Option Node
  | n, [] => some n
  | n, i :: p =>
    match n.children[i]? with
    | some c => getNode c p
    | none => none

/-- Apply `f` to the node at the end of an index path, rebuilding the
spine; out-of-range paths leave the tree unchanged (the C++ can never reach
such a path: the cursor is always valid). -/
def updateAt (f : Node → Node) : Node → List Nat → Node
  | n, [] => f n
  | .mk nm d c ct mt ch, i :: p =>
    match ch[i]? with
    | some child => .mk nm d c ct mt (ch.set i (updateAt f child p))
    | none => .mk nm d c ct mt ch

/-- The names of the nodes along an index path (excluding the root), top
down.  `getCurrentPath` collects exactly these names (bottom-up, via parent
pointers) and then prints them in reverse, i.e. top-down. -/
def namesAlong : Node → List Nat → Option (List String)
  | _, [] => some []
  | n, i :: p =>
    match n.children[i]? with
    | some c => (namesAlong c p).map (c.name :: ·)
    | none => none

/-- The `FileSystem` state of the plain (non-indexed) variant:
the root node and the cursor, as the index path from root to `currentDir`. -/
structure FS where
  root : Node
  cwd : List Nat
deriving Repr

/-- `FileSystem()`: a fresh root directory named "root", cursor at root. -/
def FS.init (now : Nat) : FS :=
  ⟨Node.new "root" true now, []⟩

/-- `getCurrentPath()`: walk parent links up to root collecting names, then
emit `/` followed by the parts in reverse (top-down) order with `/` between
consecutive parts.  The walk in our embedding follows the cursor path
downward, which yields the same top-down name list. -/
def FS.getCurrentPath (fs : FS) : String :=
  match namesAlong fs.root fs.cwd with
  | some parts => "/" ++ joinSep parts
  | none => "/"

/-- The duplicate-name scan at the top of `createFile`/`createDirectory`:
`true` iff some child of the current directory has the given name. -/
def hasChildNamed (name : String) : List Node → Bool
  | [] => false
  | c :: cs => c.name == name || hasChildNamed name cs

/-- Append a freshly constructed child (`children.push_back`). -/
def appendChild (child : Node) : Node → Node
  | .mk nm d c ct mt ch => .mk nm d c ct mt (ch ++ [child])

/-- Replace the children list of a node. -/
def setChildren (newCh : List Node) : Node → Node
  | .mk nm d c ct mt _ => .mk nm d c ct mt newCh

/-- `createFile(fileName, content)`: fails if any child of the current
directory already has the name; otherwise appends a new file node carrying
the initial content. -/
def FS.createFile (fs : FS) (now : Nat) (fileName content : String) : Bool × FS :=
  match getNode fs.root fs.cwd with
  | none => (false, fs)
  | some cur =>
    if hasChildNamed fileName cur.children then (false, fs)
    else
      let newFile : Node := .mk fileName false content now now []
      (true, { fs with root := updateAt (appendChild newFile) fs.root fs.cwd })

/-- `createDirectory(dirName)`: fails if any child of the current directory
already has the name; otherwise appends a new directory node. -/
def FS.createDirectory (fs : FS) (now : Nat) (dirName : String) : Bool × FS :=
  match getNode fs.root fs.cwd with
  | none => (false, fs)
  | some cur =>
    if hasChildNamed dirName cur.children then (false, fs)
    else
      (true, { fs with root := updateAt (appendChild (Node.new dirName true now)) fs.root fs.cwd })

/-- The loop of `changeDirectory`: index of the first child that has the
requested name AND is a directory. -/
def findDirIdx (dirName : String) : List Node → Option Nat
  | [] => none
  | c :: cs =>
    if c.name == dirName && c.isDirectory then some 0
    else (findDirIdx dirName cs).map (· + 1)

/-- `changeDirectory(dirName)`: `..` moves to the parent (fails at root),
`/` moves to the root, otherwise moves into the first directory child with
that name; the cursor is mutated only on success. -/
def FS.changeDirectory (fs : FS) (dirName : String) : Bool × FS :=
  if dirName == ".." then
    match fs.cwd with
    | [] => (false, fs)
    | _ :: _ => (true, { fs with cwd := fs.cwd.dropLast })
  else if dirName == "/" then
    (true, { fs with cwd := [] })
  else
    match getNode fs.root fs.cwd with
    | none => (false, fs)
    | some cur =>
      match findDirIdx dirName cur.children with
      | some i => (true, { fs with cwd := fs.cwd ++ [i] })
      | none => (false, fs)

/-- The loop of `writeFile`: update the first child that has the requested
name and is a file (content replaced, `modifiedTime` refreshed); `none` when
no such child exists. -/
def writeChildren (now : Nat) (fileName content : String) : List Node → Option (List Node)
  | [] => none
  | c :: cs =>
    if c.name == fileName && !c.isDirectory then
      match c with
      | .mk nm d _ ct _ ch => some (Node.mk nm d content ct now ch :: cs)
    else (writeChildren now fileName content cs).map (c :: ·)

/-- `writeFile(fileName, content)`. -/
def FS.writeFile (fs : FS) (now : Nat) (fileName content : String) : Bool × FS :=
  match getNode fs.root fs.cwd with
  | none => (false, fs)
  | some cur =>
    match writeChildren now fileName content cur.children with
    | some newCh => (true, { fs with root := updateAt (setChildren newCh) fs.root fs.cwd })
    | none => (false, fs)

/-- The loop of `readFile`: the stored content of the first child with the
requested name that is a file; `none` when no such child exists. -/
def readChildren (fileName : String) : List Node → Option String
  | [] => none
  | c :: cs =>
    if c.name == fileName && !c.isDirectory then some c.content
    else readChildren fileName cs

/-- `readFile(fileName)`: `some` of the stored content on success (the code
prints it verbatim and returns true), `none` on `File not found`. -/
def FS.readFile (fs : FS) (fileName : String) : Option String :=
  match getNode fs.root fs.cwd with
  | none => none
  | some cur => readChildren fileName cur.children

/-- The loop of `deleteFile`: remove the first child with the requested
name; `none` when absent or when it is a non-empty directory (the loop
returns immediately in that case). -/
def deleteChildren (fileName : String) : List Node → Option (List Node)
  | [] => none
  | c :: cs =>
    if c.name == fileName then
      if c.isDirectory && !c.children.isEmpty then none
      else some cs
    else (deleteChildren fileName cs).map (c :: ·)

/-- `deleteFile(fileName)`: deletes a file or an empty directory among the
children of the current directory. -/
def FS.deleteFile (fs : FS) (fileName : String) : Bool × FS :=
  match getNode fs.root fs.cwd with
  | none => (false, fs)
  | some cur =>
    match deleteChildren fileName cur.children with
    | some newCh => (true, { fs with root := updateAt (setChildren newCh) fs.root fs.cwd })
    | none => (false, fs)

/-- The descriptor printed by `fileInfo`: name, kind, size (content length
for both kinds), and the two timestamps. -/
structure Descriptor where
  name : String
  isDirectory : Bool
  size : Nat
  createdTime : Nat
  modifiedTime : Nat
deriving Repr

/-- The loop of `fileInfo`: descriptor of the first child with the requested
name (any kind). -/
def infoChildren (fileName : String) : List Node → Option Descriptor
  | [] => none
  | c :: cs =>
    if c.name == fileName then
      some ⟨c.name, c.isDirectory, c.content.length, c.createdTime, c.modifiedTime⟩
    else infoChildren fileName cs

/-- `fileInfo(fileName)`. -/
def FS.fileInfo (fs : FS) (fileName : String) : Option Descriptor :=
  match getNode fs.root fs.cwd with
  | none => none
  | some cur => infoChildren fileName cur.children

mutual
/-- `searchHelper(node, target, results, path)`: pre-order — the node itself
first (a match iff its name contains the target and it is a file), then the
children in order, each with `path + node->name + "/"` as the new path. -/
def searchNode (target path : String) : Node → List String
  | .mk nm d _ _ _ ch =>
    (if strContains nm target && !d then [path ++ nm] else [])
      ++ searchChildren target (path ++ nm ++ "/") ch

def searchChildren (target path : String) : List Node → List String
  | [] => []
  | c :: cs => searchNode target path c ++ searchChildren target path cs
end

/-- `searchFile(fileName)`: recursive search from the root (never from the
cursor) with initial path `""`; returns the ordered match list (the code
prints `No files found` exactly when this list is empty). -/
def FS.searchFile (fs : FS) (target : String) : List String :=
  searchNode target "" fs.root

/-!
## The indexed revision of the class

The revision in `src/unnamed/part_001` adds
`unordered_map<string, FileNode*> fileIndex`.  The map's values are never
dereferenced anywhere in that file — only key membership (`find`), key
insertion (`fileIndex[p] = node`) and `size()` are used — so the index is
embedded as its list of keys.  `deleteFile` of that revision is literally the
plain one: it erases the child from the tree and never touches `fileIndex`.
-/

/-- State of the indexed variant: tree, cursor, and the keys of
`fileIndex`. -/
structure IFS where
  root : Node
  cwd : List Nat
  fileIndex : List String
deriving Repr

/-- `FileSystem()` of the indexed variant: fresh root, and
`fileIndex["root"] = root`. -/
def IFS.init (now : Nat) : IFS :=
  ⟨Node.new "root" true now, [], ["root"]⟩

/-- `getCurrentPath()` (same code as the plain variant). -/
def IFS.getCurrentPath (fs : IFS) : String :=
  match namesAlong fs.root fs.cwd with
  | some parts => "/" ++ joinSep parts
  | none => "/"

/-- `getFullPath(fileName)` = `getCurrentPath() + "/" + fileName`. -/
def IFS.getFullPath (fs : IFS) (fileName : String) : String :=
  fs.getCurrentPath ++ "/" ++ fileName

/-- Indexed `createFile`: the existence check is a key lookup in
`fileIndex`, not a sibling scan; on success the new node is registered under
its full path. -/
def IFS.createFile (fs : IFS) (now : Nat) (fileName content : String) : Bool × IFS :=
  let fullPath := fs.getFullPath fileName
  if fs.fileIndex.contains fullPath then (false, fs)
  else
    match getNode fs.root fs.cwd with
    | none => (false, fs)
    | some _ =>
      let newFile : Node := .mk fileName false content now now []
      (true, { fs with
                root := updateAt (appendChild newFile) fs.root fs.cwd,
                fileIndex := fs.fileIndex ++ [fullPath] })

/-- Indexed `createDirectory`: same key-lookup guard. -/
def IFS.createDirectory (fs : IFS) (now : Nat) (dirName : String) : Bool × IFS :=
  let fullPath := fs.getFullPath dirName
  if fs.fileIndex.contains fullPath then (false, fs)
  else
    match getNode fs.root fs.cwd with
    | none => (false, fs)
    | some _ =>
      (true, { fs with
                root := updateAt (appendChild (Node.new dirName true now)) fs.root fs.cwd,
                fileIndex := fs.fileIndex ++ [fullPath] })

/-- Indexed `changeDirectory` (same code as the plain variant). -/
def IFS.changeDirectory (fs : IFS) (dirName : String) : Bool × IFS :=
  if dirName == ".." then
    match fs.cwd with
    | [] => (false, fs)
    | _ :: _ => (true, { fs with cwd := fs.cwd.dropLast })
  else if dirName == "/" then
    (true, { fs with cwd := [] })
  else
    match getNode fs.root fs.cwd with
    | none => (false, fs)
    | some cur =>
      match findDirIdx dirName cur.children with
      | some i => (true, { fs with cwd := fs.cwd ++ [i] })
      | none => (false, fs)

/-- Indexed `deleteFile`: erases the child from the tree; `fileIndex` is not
touched anywhere in the function. -/
def IFS.deleteFile (fs : IFS) (fileName : String) : Bool × IFS :=
  match getNode fs.root fs.cwd with
  | none => (false, fs)
  | some cur =>
    match deleteChildren fileName cur.children with
    | some newCh => (true, { fs with root := updateAt (setChildren newCh) fs.root fs.cwd })
    | none => (false, fs)

/-- Indexed `writeFile` (same loop as the plain variant; the index is not
consulted). -/
def IFS.writeFile (fs : IFS) (now : Nat) (fileName content : String) : Bool × IFS :=
  match getNode fs.root fs.cwd with
  | none => (false, fs)
  | some cur =>
    match writeChildren now fileName content cur.children with
    | some newCh => (true, { fs with root := updateAt (setChildren newCh) fs.root fs.cwd })
    | none => (false, fs)

/-- Indexed `deleteFile` followed by a lookup: the children of the current
directory after the run. -/
def IFS.curChildren (fs : IFS) : List Node :=
  match getNode fs.root fs.cwd with
  | some cur => cur.children
  | none => []

/-!
## Elementary list lemmas used throughout
-/

theorem get?_lt {α : Type} {l : List α} {i : Nat} {a : α}
    (h : l[i]? = some a) : i < l.length :=
  (List.getElem?_eq_some_iff.mp h).1

/-- `getNode` after `updateAt` along the same (valid) path sees the image of
the old node under the update. -/
theorem getNode_updateAt (f : Node → Node) : ∀ (p : List Nat) (r cur : Node),
    getNode r p = some cur → getNode (updateAt f r p) p = some (f cur)
  | [], r, cur, h => by
    simp only [getNode] at h
    cases h
    cases r; rfl
  | i :: p, .mk nm d c ct mt ch, cur, h => by
    simp only [getNode, Node.children] at h
    match hc : ch[i]? with
    | none => rw [hc] at h; exact absurd h (by simp)
    | some child =>
      rw [hc] at h
      simp only [updateAt, hc]
      have hlen : i < ch.length := get?_lt hc
      simp only [getNode, Node.children, List.getElem?_set_self hlen]
      exact getNode_updateAt f p child cur h

/-!
## Frozen-state lemmas: an operation that fails changes nothing

Each operation mutates the state only inside its success branch; every
failure path returns the input state verbatim.
-/

theorem FS.createFile_frozen (fs : FS) (now : Nat) (n c : String) :
    (FS.createFile fs now n c).2 = fs ∨ (FS.createFile fs now n c).1 = true := by
  unfold FS.createFile
  cases hg : getNode fs.root fs.cwd with
  | none => simp
  | some cur => cases hh : hasChildNamed n cur.children <;> simp [hh]

theorem FS.createDirectory_frozen (fs : FS) (now : Nat) (n : String) :
    (FS.createDirectory fs now n).2 = fs ∨ (FS.createDirectory fs now n).1 = true := by
  unfold FS.createDirectory
  cases hg : getNode fs.root fs.cwd with
  | none => simp
  | some cur => cases hh : hasChildNamed n cur.children <;> simp [hh]

theorem FS.deleteFile_frozen (fs : FS) (n : String) :
    (FS.deleteFile fs n).2 = fs ∨ (FS.deleteFile fs n).1 = true := by
  unfold FS.deleteFile
  cases hg : getNode fs.root fs.cwd with
  | none => simp
  | some cur => cases hd : deleteChildren n cur.children <;> simp [hd]

theorem FS.changeDirectory_frozen (fs : FS) (t : String) :
    (FS.changeDirectory fs t).2 = fs ∨ (FS.changeDirectory fs t).1 = true := by
  unfold FS.changeDirectory
  cases h1 : t == ".."
  · cases h2 : t == "/"
    · simp only [h1, h2, Bool.false_eq_true, if_false]
      cases hg : getNode fs.root fs.cwd with
      | none => simp
      | some cur => cases hf : findDirIdx t cur.children <;> simp [hf]
    · simp [h1, h2]
  · simp only [h1, if_true]
    cases hc : fs.cwd <;> simp

theorem IFS.idxCreateFile_frozen (fs : IFS) (now : Nat) (n c : String) :
    (IFS.createFile fs now n c).2 = fs ∨ (IFS.createFile fs now n c).1 = true := by
  unfold IFS.createFile
  by_cases hm : fs.getFullPath n ∈ fs.fileIndex
  · simp [hm]
  · cases hg : getNode fs.root fs.cwd <;> simp [hm, hg]

theorem IFS.idxCreateDirectory_frozen (fs : IFS) (now : Nat) (n : String) :
    (IFS.createDirectory fs now n).2 = fs ∨ (IFS.createDirectory fs now n).1 = true := by
  unfold IFS.createDirectory
  by_cases hm : fs.getFullPath n ∈ fs.fileIndex
  · simp [hm]
  · cases hg : getNode fs.root fs.cwd <;> simp [hm, hg]

theorem IFS.idxDeleteFile_frozen (fs : IFS) (n : String) :
    (IFS.deleteFile fs n).2 = fs ∨ (IFS.deleteFile fs n).1 = true := by
  unfold IFS.deleteFile
  cases hg : getNode fs.root fs.cwd with
  | none => simp
  | some cur => cases hd : deleteChildren n cur.children <;> simp [hd]

theorem IFS.idxChangeDirectory_frozen (fs : IFS) (t : String) :
    (IFS.changeDirectory fs t).2 = fs ∨ (IFS.changeDirectory fs t).1 = true := by
  unfold IFS.changeDirectory
  cases h1 : t == ".."
  · cases h2 : t == "/"
    · simp only [h1, h2, Bool.false_eq_true, if_false]
      cases hg : getNode fs.root fs.cwd with
      | none => simp
      | some cur => cases hf : findDirIdx t cur.children <;> simp [hf]
    · simp [h1, h2]
  · simp only [h1, if_true]
    cases hc : fs.cwd <;> simp

/-!
## Write/read loop lemmas (for C6 and C7)
-/

/-- A successful `writeFile` loop pass leaves a children list on which the
`readFile` loop finds exactly the written content: the first name-and-kind
match is at the same position in both loops. -/
theorem read_writeChildren (now : Nat) (f c : String) :
    ∀ (l newCh : List Node), writeChildren now f c l = some newCh →
      readChildren f newCh = some c
  | [], newCh, h => by simp [writeChildren] at h
  | ch :: cs, newCh, h => by
    unfold writeChildren at h
    cases hm : ch.name == f && !ch.isDirectory
    · rw [hm] at h
      simp only [Bool.false_eq_true, if_false] at h
      cases hw : writeChildren now f c cs with
      | none => rw [hw] at h; exact absurd h (by simp)
      | some rest =>
        rw [hw] at h
        simp only [Option.map_some'] at h
        cases h
        unfold readChildren
        rw [hm]
        simp only [Bool.false_eq_true, if_false]
        exact read_writeChildren now f c cs rest hw
    · rw [hm] at h
      simp only [if_true] at h
      match ch, hm, h with
      | .mk nm d cc ct mt chch, hm, h =>
        cases h
        unfold readChildren
        simp only [Node.name, Node.isDirectory, Node.content] at hm ⊢
        rw [hm]
        simp

/-- The `writeFile` loop succeeds whenever some child is a file with the
requested name. -/
theorem writeChildren_some (now : Nat) (f c : String) :
    ∀ (l : List Node), (∃ ch ∈ l, ch.name = f ∧ ch.isDirectory = false) →
      ∃ newCh, writeChildren now f c l = some newCh
  | [], h => by simp at h
  | ch :: cs, h => by
    unfold writeChildren
    cases hm : ch.name == f && !ch.isDirectory
    · simp only [Bool.false_eq_true, if_false]
      have hcs : ∃ ch2 ∈ cs, ch2.name = f ∧ ch2.isDirectory = false := by
        rcases h with ⟨ch2, hmem, hn, hd⟩
        rcases List.mem_cons.mp hmem with heq | hmem2
        · subst heq
          rw [hn, hd] at hm
          simp at hm
        · exact ⟨ch2, hmem2, hn, hd⟩
      rcases writeChildren_some now f c cs hcs with ⟨rest, hw⟩
      exact ⟨ch :: rest, by rw [hw]; rfl⟩
    · simp only [if_true]
      match ch, hm with
      | .mk nm d cc ct mt chch, hm => exact ⟨_, rfl⟩

/-- The `writeFile` loop fails when every child carrying the requested name
is a directory (which also covers "no child has the name"). -/
theorem writeChildren_none (now : Nat) (f c : String) :
    ∀ (l : List Node), (∀ ch ∈ l, ch.name = f → ch.isDirectory = true) →
      writeChildren now f c l = none
  | [], _ => rfl
  | ch :: cs, h => by
    unfold writeChildren
    have hm : (ch.name == f && !ch.isDirectory) = false := by
      cases hn : ch.name == f
      · simp
      · have : ch.isDirectory = true := h ch (by simp) (by simpa using hn)
        simp [this]
    rw [hm]
    simp only [Bool.false_eq_true, if_false]
    rw [writeChildren_none now f c cs (fun x hx => h x (List.mem_cons_of_mem ch hx))]
    rfl

theorem setChildren_children (newCh : List Node) (n : Node) :
    (setChildren newCh n).children = newCh := by
  cases n; rfl

/-- C6: if `f` is a file child of the current directory then
`writeFile(f, c)` succeeds, and `readFile(f)` right afterwards returns
exactly `c` — for every content string `c`, the empty string and strings
with newlines included; the result is `some c`, never the `none` of
`File not found`. -/
theorem C6_write_then_read_yields_content (fs : FS) (now : Nat) (f c : String)
    (cur : Node) (hcur : getNode fs.root fs.cwd = some cur)
    (hfile : ∃ ch ∈ cur.children, ch.name = f ∧ ch.isDirectory = false) :
    (FS.writeFile fs now f c).1 = true ∧
    FS.readFile (FS.writeFile fs now f c).2 f = some c ∧
    FS.readFile (FS.writeFile fs now f c).2 f ≠ none := by
  rcases writeChildren_some now f c cur.children hfile with ⟨newCh, hw⟩
  have hres : FS.writeFile fs now f c
      = (true, { fs with root := updateAt (setChildren newCh) fs.root fs.cwd }) := by
    unfold FS.writeFile
    simp only [hcur, hw]
  have hget : getNode (updateAt (setChildren newCh) fs.root fs.cwd) fs.cwd
      = some (setChildren newCh cur) := getNode_updateAt _ fs.cwd fs.root cur hcur
  have hread : FS.readFile (FS.writeFile fs now f c).2 f = some c := by
    rw [hres]
    unfold FS.readFile
    simp only [hget, setChildren_children]
    exact read_writeChildren now f c cur.children newCh hw
  exact ⟨by rw [hres], hread, by rw [hread]; simp⟩

/-- C6 witness: concrete run — create file "a", write the empty string and
read it back; then write a two-line string and read it back. -/
theorem C6_witness :
    ((FS.writeFile ((FS.createFile (FS.init 0) 1 "a" "x").2) 2 "a" "").1 = true ∧
      FS.readFile (FS.writeFile ((FS.createFile (FS.init 0) 1 "a" "x").2) 2 "a" "").2 "a"
        = some "" ∧
      FS.readFile (FS.writeFile ((FS.createFile (FS.init 0) 1 "a" "x").2) 2 "a" "").2 "a"
        ≠ none) ∧
    FS.readFile
        (FS.writeFile ((FS.createFile (FS.init 0) 1 "a" "x").2) 2 "a" "l1\nl2").2 "a"
      = some "l1\nl2" :=
  ⟨C6_write_then_read_yields_content ((FS.createFile (FS.init 0) 1 "a" "x").2) 2 "a" ""
      (Node.mk "root" true "" 0 0 [Node.mk "a" false "x" 1 1 []]) rfl (by decide),
   (C6_write_then_read_yields_content ((FS.createFile (FS.init 0) 1 "a" "x").2) 2 "a" "l1\nl2"
      (Node.mk "root" true "" 0 0 [Node.mk "a" false "x" 1 1 []]) rfl (by decide)).2.1⟩

/-- C7: when every child named `f` of the current directory is a directory
(in particular when the name resolves to a directory, or to nothing at
all), `writeFile` fails and returns the state exactly as it was: a write is
never applied to a directory, and no content or `modifiedTime` changes. -/
theorem C7_write_to_directory_fails_unchanged (fs : FS) (now : Nat) (f c : String)
    (cur : Node) (hcur : getNode fs.root fs.cwd = some cur)
    (hdir : ∀ ch ∈ cur.children, ch.name = f → ch.isDirectory = true) :
    FS.writeFile fs now f c = (false, fs) := by
  unfold FS.writeFile
  simp only [hcur, writeChildren_none now f c cur.children hdir]

/-- C7 witness: writing to the name of an (empty) directory child fails and
leaves the state unchanged. -/
theorem C7_witness :
    FS.writeFile ((FS.createDirectory (FS.init 0) 1 "d").2) 2 "d" "x"
      = (false, (FS.createDirectory (FS.init 0) 1 "d").2) :=
  C7_write_to_directory_fails_unchanged ((FS.createDirectory (FS.init 0) 1 "d").2) 2 "d" "x"
    (Node.mk "root" true "" 0 0 [Node.mk "d" true "" 1 1 []]) rfl (by decide)

/-- C4: `changeDirectory ".."` at the root fails (a `NotFound`-class result)
and leaves the state untouched, in both variants; and every failing
mutating operation — create, delete, changeDirectory — returns the state
exactly as it was (each conjunct says: either the state is unchanged, or
the call succeeded). -/
theorem C4_failing_ops_leave_state_unchanged (r : Node) (idx : List String)
    (fs : FS) (ifs : IFS) (now : Nat) (n c t : String) :
    FS.changeDirectory ⟨r, []⟩ ".." = (false, ⟨r, []⟩) ∧
    IFS.changeDirectory ⟨r, [], idx⟩ ".." = (false, ⟨r, [], idx⟩) ∧
    ((FS.createFile fs now n c).2 = fs ∨ (FS.createFile fs now n c).1 = true) ∧
    ((FS.createDirectory fs now n).2 = fs ∨ (FS.createDirectory fs now n).1 = true) ∧
    ((FS.deleteFile fs n).2 = fs ∨ (FS.deleteFile fs n).1 = true) ∧
    ((FS.changeDirectory fs t).2 = fs ∨ (FS.changeDirectory fs t).1 = true) ∧
    ((IFS.createFile ifs now n c).2 = ifs ∨ (IFS.createFile ifs now n c).1 = true) ∧
    ((IFS.createDirectory ifs now n).2 = ifs ∨ (IFS.createDirectory ifs now n).1 = true) ∧
    ((IFS.deleteFile ifs n).2 = ifs ∨ (IFS.deleteFile ifs n).1 = true) ∧
    ((IFS.changeDirectory ifs t).2 = ifs ∨ (IFS.changeDirectory ifs t).1 = true) :=
  ⟨rfl, rfl,
   FS.createFile_frozen fs now n c,
   FS.createDirectory_frozen fs now n,
   FS.deleteFile_frozen fs n,
   FS.changeDirectory_frozen fs t,
   IFS.idxCreateFile_frozen ifs now n c,
   IFS.idxCreateDirectory_frozen ifs now n,
   IFS.idxDeleteFile_frozen ifs n,
   IFS.idxChangeDirectory_frozen ifs t⟩

/-!
## C1: the indexed delete leaves stale index entries (code bug)
-/

/-- C1: in the indexed variant, deleting a file does NOT remove its
`fileIndex` entry.  Concrete run from a fresh file system: `createFile "a"`
succeeds and registers key `"//a"`; `deleteFile "a"` succeeds and removes the
node from the tree, but the key `"//a"` is still in the index, so a second
`createFile "a"` fails with `AlreadyExists` even though no child named `"a"`
exists — contradicting the claim (and `createFile`'s own documentation,
"false if file already exists"). -/
theorem C1_indexed_delete_leaves_stale_index :
    (IFS.deleteFile ((IFS.createFile (IFS.init 0) 1 "a" "").2) "a").1 = true ∧
    ((IFS.deleteFile ((IFS.createFile (IFS.init 0) 1 "a" "").2) "a").2).curChildren.length = 0 ∧
    ((IFS.deleteFile ((IFS.createFile (IFS.init 0) 1 "a" "").2) "a").2).fileIndex
      = ["root", "//a"] ∧
    (IFS.createFile ((IFS.deleteFile ((IFS.createFile (IFS.init 0) 1 "a" "").2) "a").2)
      2 "a" "").1 = false := by
  decide

/-!
## C2: search result paths (counterexample to the stated path format)
-/

/-- C2 counterexample: searching for `"f"` after creating a single file
`"f"` in the root directory yields the path `"root/f"`, not the parent's
absolute path (`"/"`, as rendered by `getCurrentPath`) followed by the
node's name, which would be `"/f"`. -/
theorem C2_counterexample :
    FS.searchFile ((FS.createFile (FS.init 0) 1 "f" "").2) "f" = ["root/f"] ∧
    FS.getCurrentPath (FS.init 0) = "/" ∧
    FS.searchFile ((FS.createFile (FS.init 0) 1 "f" "").2) "f" ≠ ["/" ++ "f"] := by
  decide

/-!
## C3: no name validation in the create operations (counterexample)
-/

/-- C3 counterexample: `createFile` with a name containing the separator
`/` succeeds and appends a child, and `createDirectory` with an empty name
also succeeds — there is no `InvalidName` check anywhere in either
function. -/
theorem C3_counterexample :
    (FS.createFile (FS.init 0) 1 "a/b" "").1 = true ∧
    ((FS.createFile (FS.init 0) 1 "a/b" "").2).root.children.length = 1 ∧
    (FS.createDirectory (FS.init 0) 1 "").1 = true ∧
    ((FS.createDirectory (FS.init 0) 1 "").2).root.children.length = 1 := by
  decide

/-!
## C5: path after createDirectory + changeDirectory (counterexample at root)
-/

/-- C5 counterexample: from a fresh file system (current path `"/"`),
`createDirectory "a"` then `changeDirectory "a"` yields current path
`"/a"`, which is NOT the previous path concatenated with `"/a"` (that would
be `"//a"`). -/
theorem C5_counterexample :
    FS.getCurrentPath (FS.init 0) = "/" ∧
    FS.getCurrentPath
      ((FS.changeDirectory ((FS.createDirectory (FS.init 0) 1 "a").2) "a").2) = "/a" ∧
    FS.getCurrentPath
        ((FS.changeDirectory ((FS.createDirectory (FS.init 0) 1 "a").2) "a").2)
      ≠ FS.getCurrentPath (FS.init 0) ++ "/a" := by
  decide

/-!
## Tree-wide invariants and operation sequences

`Op` enumerates the mutating engine operations (`readFile`, `searchFile`,
`fileInfo`, `getCurrentPath`, `listDirectory`, `displayStats` do not touch
the tree or cursor).  `applyOps` runs a sequence from a state, each step
with its own `time(0)` value.
-/

inductive Op where
  | mkFile (name content : String)
  | mkDir (name : String)
  | cd (target : String)
  | wr (name content : String)
  | del (name : String)

def applyOp (fs : FS) (now : Nat) : Op → FS
  | .mkFile n c => (FS.createFile fs now n c).2
  | .mkDir n => (FS.createDirectory fs now n).2
  | .cd t => (FS.changeDirectory fs t).2
  | .wr n c => (FS.writeFile fs now n c).2
  | .del n => (FS.deleteFile fs n).2

def applyOps : FS → List (Nat × Op) → FS
  | fs, [] => fs
  | fs, (t, op) :: rest => applyOps (applyOp fs t op) rest

/-- No string occurs twice in the list. -/
def namesDistinct : List String → Bool
  | [] => true
  | n :: ns => !(ns.contains n) && namesDistinct ns

mutual
/-- `p` holds on a node and, recursively, on every node of its subtree. -/
def nodeAll (p : Node → Bool) : Node → Bool
  | .mk nm d c ct mt ch => p (.mk nm d c ct mt ch) && listAll p ch

def listAll (p : Node → Bool) : List Node → Bool
  | [] => true
  | c :: cs => nodeAll p c && listAll p cs
end

/-- Local predicate: the node's children carry pairwise distinct names. -/
def pUniq : Node → Bool := fun n => namesDistinct (n.children.map Node.name)

/-- Local predicate: a directory node stores the empty content string. -/
def pDirEmpty : Node → Bool := fun n => !n.isDirectory || n.content == ""

/-- Sibling names are unique in every directory of the tree. -/
def namesUniqueB (n : Node) : Bool := nodeAll pUniq n

/-- Every directory of the tree has empty content. -/
def dirsEmptyB (n : Node) : Bool := nodeAll pDirEmpty n

/-- The index path exists in the tree and every node along it (the endpoint
included) is a directory. -/
def dirPathB : Node → List Nat → Bool
  | n, [] => n.isDirectory
  | n, i :: p =>
    n.isDirectory &&
      (match n.children[i]? with
       | some c => dirPathB c p
       | none => false)

theorem listAll_iff_mem (p : Node → Bool) : ∀ (l : List Node),
    listAll p l = true ↔ ∀ c ∈ l, nodeAll p c = true
  | [] => by simp [listAll]
  | c :: cs => by
    simp [listAll, Bool.and_eq_true, listAll_iff_mem p cs]

theorem nodeAll_split (p : Node → Bool) (nm : String) (d : Bool) (c : String)
    (ct mt : Nat) (ch : List Node) :
    nodeAll p (.mk nm d c ct mt ch) = (p (.mk nm d c ct mt ch) && listAll p ch) := by
  rfl

theorem nodeAll_getNode (p : Node → Bool) : ∀ (pth : List Nat) (r cur : Node),
    nodeAll p r = true → getNode r pth = some cur → nodeAll p cur = true
  | [], r, cur, hall, hget => by
    simp only [getNode] at hget
    cases hget
    exact hall
  | i :: pth, .mk nm d c ct mt ch, cur, hall, hget => by
    simp only [getNode, Node.children] at hget
    cases hc : ch[i]? with
    | none => rw [hc] at hget; exact absurd hget (by simp)
    | some child =>
      rw [hc] at hget
      have hl : listAll p ch = true :=
        (Bool.and_eq_true .. |>.mp (nodeAll_split p nm d c ct mt ch ▸ hall)).2
      have hchild : nodeAll p child = true :=
        (listAll_iff_mem p ch).mp hl child (List.getElem?_mem hc)
      exact nodeAll_getNode p pth child cur hchild hget

theorem updateAt_name (f : Node → Node) (hname : ∀ n, (f n).name = n.name) :
    ∀ (pth : List Nat) (n : Node), (updateAt f n pth).name = n.name
  | [], n => by cases n; exact hname _
  | i :: pth, .mk nm d c ct mt ch => by
    unfold updateAt
    cases hc : ch[i]? <;> rfl

theorem updateAt_isDirectory (f : Node → Node)
    (hdir : ∀ n, (f n).isDirectory = n.isDirectory) :
    ∀ (pth : List Nat) (n : Node), (updateAt f n pth).isDirectory = n.isDirectory
  | [], n => by cases n; exact hdir _
  | i :: pth, .mk nm d c ct mt ch => by
    unfold updateAt
    cases hc : ch[i]? <;> rfl

theorem mapName_set : ∀ (ch : List Node) (i : Nat) (x child : Node),
    ch[i]? = some child → x.name = child.name →
    (ch.set i x).map Node.name = ch.map Node.name
  | [], i, x, child, h, _ => by simp at h
  | c :: cs, 0, x, child, h, hn => by
    simp only [List.getElem?_cons_zero, Option.some.injEq] at h
    cases h
    simp [List.set, hn]
  | c :: cs, i + 1, x, child, h, hn => by
    simp only [List.getElem?_cons_succ] at h
    simp [List.set, mapName_set cs i x child h hn]

theorem listAll_set (p : Node → Bool) (l : List Node) (i : Nat) (x : Node)
    (hl : listAll p l = true) (hx : nodeAll p x = true) :
    listAll p (l.set i x) = true := by
  rw [listAll_iff_mem]
  intro c hc
  rcases List.mem_or_eq_of_mem_set hc with hmem | heq
  · exact (listAll_iff_mem p l).mp hl c hmem
  · cases heq; exact hx

theorem listAll_sub (p : Node → Bool) (l l2 : List Node)
    (hl : listAll p l = true) (hsub : ∀ c ∈ l2, c ∈ l) :
    listAll p l2 = true := by
  rw [listAll_iff_mem]
  intro c hc
  exact (listAll_iff_mem p l).mp hl c (hsub c hc)

/-- Updating the node at the end of a path preserves a `nodeAll` invariant,
provided the local predicate only looks at a node's own fields and its
children's names, the update preserves the node's name, and the update
preserves the invariant at the updated node itself. -/
theorem nodeAll_updateAt (p : Node → Bool) (f : Node → Node)
    (hname : ∀ n, (f n).name = n.name)
    (hp : ∀ nm d c ct mt ch ch', ch'.map Node.name = ch.map Node.name →
      p (.mk nm d c ct mt ch') = p (.mk nm d c ct mt ch)) :
    ∀ (pth : List Nat) (r : Node), nodeAll p r = true →
      (∀ n, getNode r pth = some n → nodeAll p (f n) = true) →
      nodeAll p (updateAt f r pth) = true
  | [], r, hall, hf => by cases r; exact hf _ rfl
  | i :: pth, .mk nm d c ct mt ch, hall, hf => by
    unfold updateAt
    cases hc : ch[i]? with
    | none => exact hall
    | some child =>
      have hsplit := Bool.and_eq_true .. |>.mp (nodeAll_split p nm d c ct mt ch ▸ hall)
      have hchild : nodeAll p child = true :=
        (listAll_iff_mem p ch).mp hsplit.2 child (List.getElem?_mem hc)
      have hx : nodeAll p (updateAt f child pth) = true :=
        nodeAll_updateAt p f hname hp pth child hchild
          (fun n hn => hf n (by simp [getNode, Node.children, hc, hn]))
      have hxname : (updateAt f child pth).name = child.name :=
        updateAt_name f hname pth child
      have hnames : (ch.set i (updateAt f child pth)).map Node.name = ch.map Node.name :=
        mapName_set ch i _ child hc hxname
      rw [nodeAll_split, Bool.and_eq_true]
      exact ⟨by rw [hp nm d c ct mt ch _ hnames]; exact hsplit.1,
             listAll_set p ch i _ hsplit.2 hx⟩

/-!
## Cursor-validity invariant (C9)
-/

theorem appendChild_name (x n : Node) : (appendChild x n).name = n.name := by
  cases n; rfl

theorem appendChild_isDirectory (x n : Node) :
    (appendChild x n).isDirectory = n.isDirectory := by
  cases n; rfl

theorem setChildren_name (newCh : List Node) (n : Node) :
    (setChildren newCh n).name = n.name := by
  cases n; rfl

theorem setChildren_isDirectory (newCh : List Node) (n : Node) :
    (setChildren newCh n).isDirectory = n.isDirectory := by
  cases n; rfl

theorem dirPathB_nil (n : Node) : dirPathB n [] = n.isDirectory := by
  cases n; rfl

theorem dirPathB_cons (n : Node) (i : Nat) (p : List Nat) :
    dirPathB n (i :: p)
      = (n.isDirectory &&
          (match n.children[i]? with
           | some c => dirPathB c p
           | none => false)) := by
  cases n; rfl

theorem dirPath_head : ∀ (q : List Nat) (r : Node),
    dirPathB r q = true → r.isDirectory = true
  | [], r, h => by rw [dirPathB_nil] at h; exact h
  | i :: q, r, h => by
    rw [dirPathB_cons, Bool.and_eq_true] at h
    exact h.1

theorem dirPathB_append : ∀ (p q : List Nat) (r : Node),
    dirPathB r (p ++ q) = true → dirPathB r p = true
  | [], q, r, h => by rw [dirPathB_nil]; exact dirPath_head q r h
  | i :: p, q, r, h => by
    rw [List.cons_append, dirPathB_cons, Bool.and_eq_true] at h
    rw [dirPathB_cons, Bool.and_eq_true]
    refine ⟨h.1, ?_⟩
    cases hc : r.children[i]? with
    | none => rw [hc] at h; exact absurd h.2 (by simp)
    | some child =>
      rw [hc] at h
      exact dirPathB_append p q child h.2

theorem dirPath_getNode : ∀ (p : List Nat) (r : Node), dirPathB r p = true →
    ∃ cur, getNode r p = some cur ∧ cur.isDirectory = true
  | [], r, h => ⟨r, rfl, by rw [dirPathB_nil] at h; exact h⟩
  | i :: p, r, h => by
    rw [dirPathB_cons, Bool.and_eq_true] at h
    cases hc : r.children[i]? with
    | none => rw [hc] at h; exact absurd h.2 (by simp)
    | some child =>
      rw [hc] at h
      rcases dirPath_getNode p child h.2 with ⟨cur, hg, hd⟩
      exact ⟨cur, by simp [getNode, hc, hg], hd⟩

theorem dirPath_snoc : ∀ (p : List Nat) (r cur c : Node) (i : Nat),
    dirPathB r p = true → getNode r p = some cur → cur.children[i]? = some c →
    c.isDirectory = true → dirPathB r (p ++ [i]) = true
  | [], r, cur, c, i, hp, hg, hc, hd => by
    simp only [getNode] at hg
    cases hg
    rw [List.nil_append, dirPathB_cons, Bool.and_eq_true, hc]
    rw [dirPathB_nil] at hp
    refine ⟨hp, ?_⟩
    show dirPathB c [] = true
    rw [dirPathB_nil]
    exact hd
  | j :: p, r, cur, c, i, hp, hg, hc, hd => by
    rw [dirPathB_cons, Bool.and_eq_true] at hp
    rw [List.cons_append, dirPathB_cons, Bool.and_eq_true]
    refine ⟨hp.1, ?_⟩
    cases hj : r.children[j]? with
    | none => rw [hj] at hp; exact absurd hp.2 (by simp)
    | some child =>
      rw [hj] at hp
      have hg2 : getNode child p = some cur := by
        simp only [getNode, hj] at hg
        exact hg
      exact dirPath_snoc p child cur c i hp.2 hg2 hc hd

theorem findDirIdx_get (d : String) : ∀ (l : List Node) (i : Nat),
    findDirIdx d l = some i → ∃ c, l[i]? = some c ∧ c.isDirectory = true
  | [], i, h => by simp [findDirIdx] at h
  | c :: cs, i, h => by
    unfold findDirIdx at h
    cases hm : (c.name == d && c.isDirectory)
    · rw [hm] at h
      simp only [Bool.false_eq_true, if_false] at h
      cases hf : findDirIdx d cs with
      | none => rw [hf] at h; exact absurd h (by simp)
      | some j =>
        rw [hf] at h
        simp only [Option.map_some'] at h
        cases h
        rcases findDirIdx_get d cs j hf with ⟨x, hx, hxd⟩
        exact ⟨x, by simpa using hx, hxd⟩
    · rw [hm] at h
      simp only [if_true] at h
      cases h
      exact ⟨c, by simp, (Bool.and_eq_true .. |>.mp hm).2⟩

theorem dirPath_updateAt (f : Node → Node)
    (hdir : ∀ n, (f n).isDirectory = n.isDirectory) :
    ∀ (pth : List Nat) (r : Node),
      dirPathB r pth = true → dirPathB (updateAt f r pth) pth = true
  | [], r, h => by
    rw [dirPathB_nil, updateAt_isDirectory f hdir [] r]
    rw [dirPathB_nil] at h
    exact h
  | i :: pth, .mk nm d c ct mt ch, h => by
    rw [dirPathB_cons, Bool.and_eq_true] at h
    simp only [Node.children] at h
    unfold updateAt
    cases hc : ch[i]? with
    | none => rw [hc] at h; exact absurd h.2 (by simp)
    | some child =>
      rw [hc] at h
      rw [dirPathB_cons, Bool.and_eq_true]
      simp only [Node.children, Node.isDirectory]
      refine ⟨h.1, ?_⟩
      have hlen : i < ch.length := get?_lt hc
      rw [List.getElem?_set_self hlen]
      exact dirPath_updateAt f hdir pth child h.2

/-!
## Equational descriptions of each operation's branches
-/

theorem FS.createFile_eq_noget (fs : FS) (now : Nat) (n c : String)
    (hg : getNode fs.root fs.cwd = none) :
    FS.createFile fs now n c = (false, fs) := by
  unfold FS.createFile
  simp only [hg]

theorem FS.createFile_eq_dup (fs : FS) (now : Nat) (n c : String) (cur : Node)
    (hg : getNode fs.root fs.cwd = some cur)
    (hh : hasChildNamed n cur.children = true) :
    FS.createFile fs now n c = (false, fs) := by
  unfold FS.createFile
  simp only [hg, hh, if_true]

theorem FS.createFile_eq_success (fs : FS) (now : Nat) (n c : String) (cur : Node)
    (hg : getNode fs.root fs.cwd = some cur)
    (hh : hasChildNamed n cur.children = false) :
    FS.createFile fs now n c
      = (true, { fs with
          root := updateAt (appendChild (Node.mk n false c now now [])) fs.root fs.cwd }) := by
  unfold FS.createFile
  simp only [hg, hh, Bool.false_eq_true, if_false]

theorem FS.createDirectory_eq_noget (fs : FS) (now : Nat) (n : String)
    (hg : getNode fs.root fs.cwd = none) :
    FS.createDirectory fs now n = (false, fs) := by
  unfold FS.createDirectory
  simp only [hg]

theorem FS.createDirectory_eq_dup (fs : FS) (now : Nat) (n : String) (cur : Node)
    (hg : getNode fs.root fs.cwd = some cur)
    (hh : hasChildNamed n cur.children = true) :
    FS.createDirectory fs now n = (false, fs) := by
  unfold FS.createDirectory
  simp only [hg, hh, if_true]

theorem FS.createDirectory_eq_success (fs : FS) (now : Nat) (n : String) (cur : Node)
    (hg : getNode fs.root fs.cwd = some cur)
    (hh : hasChildNamed n cur.children = false) :
    FS.createDirectory fs now n
      = (true, { fs with
          root := updateAt (appendChild (Node.new n true now)) fs.root fs.cwd }) := by
  unfold FS.createDirectory
  simp only [hg, hh, Bool.false_eq_true, if_false]

theorem FS.writeFile_eq_noget (fs : FS) (now : Nat) (n c : String)
    (hg : getNode fs.root fs.cwd = none) :
    FS.writeFile fs now n c = (false, fs) := by
  unfold FS.writeFile
  simp only [hg]

theorem FS.writeFile_eq_fail (fs : FS) (now : Nat) (n c : String) (cur : Node)
    (hg : getNode fs.root fs.cwd = some cur)
    (hw : writeChildren now n c cur.children = none) :
    FS.writeFile fs now n c = (false, fs) := by
  unfold FS.writeFile
  simp only [hg, hw]

theorem FS.writeFile_eq_success (fs : FS) (now : Nat) (n c : String) (cur : Node)
    (newCh : List Node) (hg : getNode fs.root fs.cwd = some cur)
    (hw : writeChildren now n c cur.children = some newCh) :
    FS.writeFile fs now n c
      = (true, { fs with root := updateAt (setChildren newCh) fs.root fs.cwd }) := by
  unfold FS.writeFile
  simp only [hg, hw]

theorem FS.deleteFile_eq_noget (fs : FS) (n : String)
    (hg : getNode fs.root fs.cwd = none) :
    FS.deleteFile fs n = (false, fs) := by
  unfold FS.deleteFile
  simp only [hg]

theorem FS.deleteFile_eq_fail (fs : FS) (n : String) (cur : Node)
    (hg : getNode fs.root fs.cwd = some cur)
    (hd : deleteChildren n cur.children = none) :
    FS.deleteFile fs n = (false, fs) := by
  unfold FS.deleteFile
  simp only [hg, hd]

theorem FS.deleteFile_eq_success (fs : FS) (n : String) (cur : Node)
    (newCh : List Node) (hg : getNode fs.root fs.cwd = some cur)
    (hd : deleteChildren n cur.children = some newCh) :
    FS.deleteFile fs n
      = (true, { fs with root := updateAt (setChildren newCh) fs.root fs.cwd }) := by
  unfold FS.deleteFile
  simp only [hg, hd]

theorem FS.changeDirectory_eq_parent_at_root (fs : FS) (hc : fs.cwd = []) :
    FS.changeDirectory fs ".." = (false, fs) := by
  unfold FS.changeDirectory
  simp only [beq_self_eq_true, if_true, hc]

theorem FS.changeDirectory_eq_parent (fs : FS) (a : Nat) (p : List Nat)
    (hc : fs.cwd = a :: p) :
    FS.changeDirectory fs ".." = (true, { fs with cwd := fs.cwd.dropLast }) := by
  unfold FS.changeDirectory
  simp only [beq_self_eq_true, if_true, hc]

theorem FS.changeDirectory_eq_root (fs : FS) (t : String) (h1 : (t == "..") = false)
    (h2 : (t == "/") = true) :
    FS.changeDirectory fs t = (true, { fs with cwd := [] }) := by
  unfold FS.changeDirectory
  simp only [h1, h2, Bool.false_eq_true, if_false, if_true]

theorem FS.changeDirectory_eq_noget (fs : FS) (t : String) (h1 : (t == "..") = false)
    (h2 : (t == "/") = false) (hg : getNode fs.root fs.cwd = none) :
    FS.changeDirectory fs t = (false, fs) := by
  unfold FS.changeDirectory
  simp only [h1, h2, Bool.false_eq_true, if_false, hg]

theorem FS.changeDirectory_eq_notfound (fs : FS) (t : String) (cur : Node)
    (h1 : (t == "..") = false) (h2 : (t == "/") = false)
    (hg : getNode fs.root fs.cwd = some cur)
    (hf : findDirIdx t cur.children = none) :
    FS.changeDirectory fs t = (false, fs) := by
  unfold FS.changeDirectory
  simp only [h1, h2, Bool.false_eq_true, if_false, hg, hf]

theorem FS.changeDirectory_eq_child (fs : FS) (t : String) (cur : Node) (i : Nat)
    (h1 : (t == "..") = false) (h2 : (t == "/") = false)
    (hg : getNode fs.root fs.cwd = some cur)
    (hf : findDirIdx t cur.children = some i) :
    FS.changeDirectory fs t = (true, { fs with cwd := fs.cwd ++ [i] }) := by
  unfold FS.changeDirectory
  simp only [h1, h2, Bool.false_eq_true, if_false, hg, hf]

theorem dirPath_applyOp (fs : FS) (now : Nat) (op : Op)
    (h : dirPathB fs.root fs.cwd = true) :
    dirPathB (applyOp fs now op).root (applyOp fs now op).cwd = true := by
  cases op with
  | mkFile n c =>
    show dirPathB (FS.createFile fs now n c).2.root (FS.createFile fs now n c).2.cwd = true
    cases hg : getNode fs.root fs.cwd with
    | none => rw [FS.createFile_eq_noget fs now n c hg]; exact h
    | some cur =>
      cases hh : hasChildNamed n cur.children
      · rw [FS.createFile_eq_success fs now n c cur hg hh]
        exact dirPath_updateAt _ (fun x => appendChild_isDirectory _ x) fs.cwd fs.root h
      · rw [FS.createFile_eq_dup fs now n c cur hg hh]
        exact h
  | mkDir n =>
    show dirPathB (FS.createDirectory fs now n).2.root (FS.createDirectory fs now n).2.cwd = true
    cases hg : getNode fs.root fs.cwd with
    | none => rw [FS.createDirectory_eq_noget fs now n hg]; exact h
    | some cur =>
      cases hh : hasChildNamed n cur.children
      · rw [FS.createDirectory_eq_success fs now n cur hg hh]
        exact dirPath_updateAt _ (fun x => appendChild_isDirectory _ x) fs.cwd fs.root h
      · rw [FS.createDirectory_eq_dup fs now n cur hg hh]
        exact h
  | wr n c =>
    show dirPathB (FS.writeFile fs now n c).2.root (FS.writeFile fs now n c).2.cwd = true
    cases hg : getNode fs.root fs.cwd with
    | none => rw [FS.writeFile_eq_noget fs now n c hg]; exact h
    | some cur =>
      cases hw : writeChildren now n c cur.children with
      | none => rw [FS.writeFile_eq_fail fs now n c cur hg hw]; exact h
      | some newCh =>
        rw [FS.writeFile_eq_success fs now n c cur newCh hg hw]
        exact dirPath_updateAt _ (fun x => setChildren_isDirectory _ x) fs.cwd fs.root h
  | del n =>
    show dirPathB (FS.deleteFile fs n).2.root (FS.deleteFile fs n).2.cwd = true
    cases hg : getNode fs.root fs.cwd with
    | none => rw [FS.deleteFile_eq_noget fs n hg]; exact h
    | some cur =>
      cases hd : deleteChildren n cur.children with
      | none => rw [FS.deleteFile_eq_fail fs n cur hg hd]; exact h
      | some newCh =>
        rw [FS.deleteFile_eq_success fs n cur newCh hg hd]
        exact dirPath_updateAt _ (fun x => setChildren_isDirectory _ x) fs.cwd fs.root h
  | cd t =>
    show dirPathB (FS.changeDirectory fs t).2.root (FS.changeDirectory fs t).2.cwd = true
    cases h1 : t == ".."
    · cases h2 : t == "/"
      · cases hg : getNode fs.root fs.cwd with
        | none => rw [FS.changeDirectory_eq_noget fs t h1 h2 hg]; exact h
        | some cur =>
          cases hf : findDirIdx t cur.children with
          | none => rw [FS.changeDirectory_eq_notfound fs t cur h1 h2 hg hf]; exact h
          | some i =>
            rw [FS.changeDirectory_eq_child fs t cur i h1 h2 hg hf]
            rcases findDirIdx_get t cur.children i hf with ⟨c, hc, hcd⟩
            exact dirPath_snoc fs.cwd fs.root cur c i h hg hc hcd
      · rw [FS.changeDirectory_eq_root fs t h1 h2]
        rw [dirPathB_nil]
        exact dirPath_head fs.cwd fs.root h
    · have ht : t = ".." := by simpa using h1
      subst ht
      cases hcwd : fs.cwd with
      | nil =>
        rw [FS.changeDirectory_eq_parent_at_root fs hcwd]
        exact h
      | cons a p =>
        rw [FS.changeDirectory_eq_parent fs a p hcwd]
        rw [hcwd] at h
        have hne : (a :: p) ≠ ([] : List Nat) := by simp
        rw [← List.dropLast_append_getLast hne] at h
        have hres := dirPathB_append _ _ _ h
        rw [hcwd]
        exact hres

theorem dirPath_applyOps : ∀ (ops : List (Nat × Op)) (fs : FS),
    dirPathB fs.root fs.cwd = true →
    dirPathB (applyOps fs ops).root (applyOps fs ops).cwd = true
  | [], _fs, h => h
  | (t, op) :: rest, fs, h =>
    dirPath_applyOps rest (applyOp fs t op) (dirPath_applyOp fs t op h)

/-- C9: after any sequence of engine operations from a fresh `FileSystem`,
the cursor still designates a node of the tree, and that node is a
directory: `changeDirectory` moves only to the parent, the root, or a
directory child, and `deleteFile` removes only children of the cursor, never
the cursor or an ancestor. -/
theorem C9_cursor_is_live_directory (t0 : Nat) (ops : List (Nat × Op)) :
    ∃ cur, getNode (applyOps (FS.init t0) ops).root (applyOps (FS.init t0) ops).cwd
        = some cur ∧ cur.isDirectory = true :=
  dirPath_getNode _ _ (dirPath_applyOps ops (FS.init t0) rfl)

/-!
## Sibling-name uniqueness (C8) and empty directory content (C10)
-/

theorem hasChildNamed_mem_iff (x : String) : ∀ (l : List Node),
    hasChildNamed x l = true ↔ x ∈ l.map Node.name
  | [] => by simp [hasChildNamed]
  | c :: cs => by
    unfold hasChildNamed
    rw [Bool.or_eq_true, beq_iff_eq, List.map_cons, List.mem_cons,
      hasChildNamed_mem_iff x cs]
    constructor
    · rintro (h | h)
      · exact Or.inl h.symm
      · exact Or.inr h
    · rintro (h | h)
      · exact Or.inl h.symm
      · exact Or.inr h

theorem hasChildNamed_exists_iff (x : String) (l : List Node) :
    hasChildNamed x l = true ↔ ∃ c ∈ l, c.name = x := by
  rw [hasChildNamed_mem_iff]
  constructor
  · intro hm
    rcases List.mem_map.mp hm with ⟨c, hc, he⟩
    exact ⟨c, hc, he⟩
  · rintro ⟨c, hc, he⟩
    exact he ▸ List.mem_map_of_mem Node.name hc

theorem namesDistinct_cons (n : String) (ns : List String) :
    namesDistinct (n :: ns) = (!(ns.contains n) && namesDistinct ns) := rfl

theorem contains_false_iff (ns : List String) (x : String) :
    (!(ns.contains x)) = true ↔ ¬ x ∈ ns := by simp

theorem namesDistinct_append_single : ∀ (ns : List String) (x : String),
    namesDistinct ns = true → ¬(x ∈ ns) → namesDistinct (ns ++ [x]) = true
  | [], x, _, _ => by simp [namesDistinct]
  | n :: ns, x, h, hx => by
    rw [namesDistinct_cons, Bool.and_eq_true] at h
    show namesDistinct (n :: (ns ++ [x])) = true
    rw [namesDistinct_cons, Bool.and_eq_true]
    have hn : ¬ n ∈ ns := (contains_false_iff ns n).mp h.1
    have hnx : n ≠ x := fun he => hx (by rw [← he]; exact List.mem_cons_self n ns)
    refine ⟨(contains_false_iff _ n).mpr ?_,
      namesDistinct_append_single ns x h.2 (fun hm => hx (List.mem_cons_of_mem n hm))⟩
    intro hmem
    rcases List.mem_append.mp hmem with h1 | h2
    · exact hn h1
    · exact hnx (by simpa using h2)

theorem pUniq_children_names (nm : String) (d : Bool) (c : String) (ct mt : Nat)
    (ch ch' : List Node) (h : ch'.map Node.name = ch.map Node.name) :
    pUniq (.mk nm d c ct mt ch') = pUniq (.mk nm d c ct mt ch) := by
  simp only [pUniq, Node.children, h]

theorem pDirEmpty_children_names (nm : String) (d : Bool) (c : String) (ct mt : Nat)
    (ch ch' : List Node) (_ : ch'.map Node.name = ch.map Node.name) :
    pDirEmpty (.mk nm d c ct mt ch') = pDirEmpty (.mk nm d c ct mt ch) := rfl

theorem nodeAll_leaf (p : Node → Bool) (nm : String) (d : Bool) (c : String)
    (ct mt : Nat) (h : p (.mk nm d c ct mt []) = true) :
    nodeAll p (.mk nm d c ct mt []) = true := by
  rw [nodeAll_split, Bool.and_eq_true]
  exact ⟨h, rfl⟩

theorem uniq_appendChild (cur new : Node)
    (hnot : hasChildNamed new.name cur.children = false)
    (hnew : nodeAll pUniq new = true)
    (hcur : nodeAll pUniq cur = true) :
    nodeAll pUniq (appendChild new cur) = true := by
  cases cur with
  | mk nm d c ct mt ch =>
    have hsplit := Bool.and_eq_true .. |>.mp (nodeAll_split pUniq nm d c ct mt ch ▸ hcur)
    show nodeAll pUniq (.mk nm d c ct mt (ch ++ [new])) = true
    rw [nodeAll_split, Bool.and_eq_true]
    constructor
    · have hmem : ¬ new.name ∈ ch.map Node.name := by
        intro hm
        rw [← hasChildNamed_mem_iff new.name ch] at hm
        simp only [Node.children] at hnot
        rw [hnot] at hm
        exact absurd hm (by simp)
      have hdist : namesDistinct (ch.map Node.name) = true := by
        simpa [pUniq, Node.children] using hsplit.1
      have : namesDistinct (ch.map Node.name ++ [new.name]) = true :=
        namesDistinct_append_single _ _ hdist hmem
      simpa [pUniq, Node.children, List.map_append] using this
    · rw [listAll_iff_mem]
      intro x hx
      rcases List.mem_append.mp hx with hx1 | hx2
      · exact (listAll_iff_mem pUniq ch).mp hsplit.2 x hx1
      · have : x = new := by simpa using hx2
        cases this
        exact hnew

theorem dirsEmpty_appendChild (cur new : Node)
    (hnew : nodeAll pDirEmpty new = true)
    (hcur : nodeAll pDirEmpty cur = true) :
    nodeAll pDirEmpty (appendChild new cur) = true := by
  cases cur with
  | mk nm d c ct mt ch =>
    have hsplit := Bool.and_eq_true .. |>.mp (nodeAll_split pDirEmpty nm d c ct mt ch ▸ hcur)
    show nodeAll pDirEmpty (.mk nm d c ct mt (ch ++ [new])) = true
    rw [nodeAll_split, Bool.and_eq_true]
    refine ⟨hsplit.1, ?_⟩
    rw [listAll_iff_mem]
    intro x hx
    rcases List.mem_append.mp hx with hx1 | hx2
    · exact (listAll_iff_mem pDirEmpty ch).mp hsplit.2 x hx1
    · have : x = new := by simpa using hx2
      cases this
      exact hnew

theorem writeChildren_names (now : Nat) (f c : String) :
    ∀ (l newCh : List Node), writeChildren now f c l = some newCh →
      newCh.map Node.name = l.map Node.name
  | [], newCh, h => by simp [writeChildren] at h
  | ch :: cs, newCh, h => by
    unfold writeChildren at h
    cases hm : ch.name == f && !ch.isDirectory
    · rw [hm] at h
      simp only [Bool.false_eq_true, if_false] at h
      cases hw : writeChildren now f c cs with
      | none => rw [hw] at h; exact absurd h (by simp)
      | some rest =>
        rw [hw] at h
        simp only [Option.map_some'] at h
        cases h
        simp [writeChildren_names now f c cs rest hw]
    · rw [hm] at h
      simp only [if_true] at h
      match ch, hm, h with
      | .mk nm d cc ct mt chch, hm, h =>
        cases h
        simp [Node.name]

theorem writeChildren_listAll_uniq (now : Nat) (f c : String) :
    ∀ (l newCh : List Node), listAll pUniq l = true →
      writeChildren now f c l = some newCh → listAll pUniq newCh = true
  | [], newCh, _, h => by simp [writeChildren] at h
  | ch :: cs, newCh, hall, h => by
    have hsplit := Bool.and_eq_true .. |>.mp (show (nodeAll pUniq ch && listAll pUniq cs) = true from hall)
    unfold writeChildren at h
    cases hm : ch.name == f && !ch.isDirectory
    · rw [hm] at h
      simp only [Bool.false_eq_true, if_false] at h
      cases hw : writeChildren now f c cs with
      | none => rw [hw] at h; exact absurd h (by simp)
      | some rest =>
        rw [hw] at h
        simp only [Option.map_some'] at h
        cases h
        show (nodeAll pUniq ch && listAll pUniq rest) = true
        rw [Bool.and_eq_true]
        exact ⟨hsplit.1, writeChildren_listAll_uniq now f c cs rest hsplit.2 hw⟩
    · rw [hm] at h
      simp only [if_true] at h
      match ch, hm, hsplit, h with
      | .mk nm d cc ct mt chch, hm, hsplit, h =>
        cases h
        show (nodeAll pUniq (.mk nm d c ct now chch) && listAll pUniq cs) = true
        rw [Bool.and_eq_true]
        refine ⟨?_, hsplit.2⟩
        have hold := Bool.and_eq_true .. |>.mp
          (nodeAll_split pUniq nm d cc ct mt chch ▸ hsplit.1)
        rw [nodeAll_split, Bool.and_eq_true]
        exact ⟨by simpa [pUniq, Node.children] using hold.1, hold.2⟩

theorem writeChildren_listAll_dirsEmpty (now : Nat) (f c : String) :
    ∀ (l newCh : List Node), listAll pDirEmpty l = true →
      writeChildren now f c l = some newCh → listAll pDirEmpty newCh = true
  | [], newCh, _, h => by simp [writeChildren] at h
  | ch :: cs, newCh, hall, h => by
    have hsplit := Bool.and_eq_true .. |>.mp (show (nodeAll pDirEmpty ch && listAll pDirEmpty cs) = true from hall)
    unfold writeChildren at h
    cases hm : ch.name == f && !ch.isDirectory
    · rw [hm] at h
      simp only [Bool.false_eq_true, if_false] at h
      cases hw : writeChildren now f c cs with
      | none => rw [hw] at h; exact absurd h (by simp)
      | some rest =>
        rw [hw] at h
        simp only [Option.map_some'] at h
        cases h
        show (nodeAll pDirEmpty ch && listAll pDirEmpty rest) = true
        rw [Bool.and_eq_true]
        exact ⟨hsplit.1, writeChildren_listAll_dirsEmpty now f c cs rest hsplit.2 hw⟩
    · rw [hm] at h
      simp only [if_true] at h
      match ch, hm, hsplit, h with
      | .mk nm d cc ct mt chch, hm, hsplit, h =>
        cases h
        show (nodeAll pDirEmpty (.mk nm d c ct now chch) && listAll pDirEmpty cs) = true
        rw [Bool.and_eq_true]
        refine ⟨?_, hsplit.2⟩
        have hold := Bool.and_eq_true .. |>.mp
          (nodeAll_split pDirEmpty nm d cc ct mt chch ▸ hsplit.1)
        have hd : d = false := by
          rcases Bool.and_eq_true .. |>.mp hm with ⟨_, hdd⟩
          simpa [Node.isDirectory] using hdd
        rw [nodeAll_split, Bool.and_eq_true]
        exact ⟨by simp [pDirEmpty, Node.isDirectory, hd], hold.2⟩

theorem deleteChildren_mem (f : String) :
    ∀ (l newCh : List Node), deleteChildren f l = some newCh →
      ∀ x ∈ newCh, x ∈ l
  | [], newCh, h => by simp [deleteChildren] at h
  | c :: cs, newCh, h => by
    unfold deleteChildren at h
    cases hm : c.name == f
    · rw [hm] at h
      simp only [Bool.false_eq_true, if_false] at h
      cases hd : deleteChildren f cs with
      | none => rw [hd] at h; exact absurd h (by simp)
      | some rest =>
        rw [hd] at h
        simp only [Option.map_some'] at h
        cases h
        intro x hx
        rcases List.mem_cons.mp hx with he | hr
        · cases he; exact List.mem_cons_self _ _
        · exact List.mem_cons_of_mem _ (deleteChildren_mem f cs rest hd x hr)
    · rw [hm] at h
      simp only [if_true] at h
      cases hne : c.isDirectory && !c.children.isEmpty
      · rw [hne] at h
        simp only [Bool.false_eq_true, if_false] at h
        cases h
        intro x hx
        exact List.mem_cons_of_mem _ hx
      · rw [hne] at h
        simp only [if_true] at h
        exact absurd h (by simp)

theorem deleteChildren_names_distinct (f : String) :
    ∀ (l newCh : List Node), namesDistinct (l.map Node.name) = true →
      deleteChildren f l = some newCh → namesDistinct (newCh.map Node.name) = true
  | [], newCh, _, h => by simp [deleteChildren] at h
  | c :: cs, newCh, hdist, h => by
    rw [List.map_cons, namesDistinct_cons, Bool.and_eq_true] at hdist
    unfold deleteChildren at h
    cases hm : c.name == f
    · rw [hm] at h
      simp only [Bool.false_eq_true, if_false] at h
      cases hd : deleteChildren f cs with
      | none => rw [hd] at h; exact absurd h (by simp)
      | some rest =>
        rw [hd] at h
        simp only [Option.map_some'] at h
        cases h
        rw [List.map_cons, namesDistinct_cons, Bool.and_eq_true]
        constructor
        · have hnotin : ¬ c.name ∈ cs.map Node.name :=
            (contains_false_iff _ _).mp hdist.1
          refine (contains_false_iff _ _).mpr ?_
          intro hmem
          rcases List.mem_map.mp hmem with ⟨x, hx, hxs⟩
          exact hnotin
            (hxs ▸ List.mem_map_of_mem Node.name (deleteChildren_mem f cs rest hd x hx))
        · exact deleteChildren_names_distinct f cs rest hdist.2 hd
    · rw [hm] at h
      simp only [if_true] at h
      cases hne : c.isDirectory && !c.children.isEmpty
      · rw [hne] at h
        simp only [Bool.false_eq_true, if_false] at h
        cases h
        exact hdist.2
      · rw [hne] at h
        simp only [if_true] at h
        exact absurd h (by simp)

theorem FS.changeDirectory_root (fs : FS) (t : String) :
    ((FS.changeDirectory fs t).2).root = fs.root := by
  cases h1 : t == ".."
  · cases h2 : t == "/"
    · cases hg : getNode fs.root fs.cwd with
      | none => rw [FS.changeDirectory_eq_noget fs t h1 h2 hg]
      | some cur =>
        cases hf : findDirIdx t cur.children with
        | none => rw [FS.changeDirectory_eq_notfound fs t cur h1 h2 hg hf]
        | some i => rw [FS.changeDirectory_eq_child fs t cur i h1 h2 hg hf]
    · rw [FS.changeDirectory_eq_root fs t h1 h2]
  · have ht : t = ".." := by simpa using h1
    subst ht
    cases hcwd : fs.cwd with
    | nil => rw [FS.changeDirectory_eq_parent_at_root fs hcwd]
    | cons a p => rw [FS.changeDirectory_eq_parent fs a p hcwd]

theorem uniq_setChildren_write (now : Nat) (n c : String) (cur : Node)
    (newCh : List Node) (hcur : nodeAll pUniq cur = true)
    (hw : writeChildren now n c cur.children = some newCh) :
    nodeAll pUniq (setChildren newCh cur) = true := by
  cases cur with
  | mk nm d cc ct mt ch =>
    have hsplit := Bool.and_eq_true .. |>.mp (nodeAll_split pUniq nm d cc ct mt ch ▸ hcur)
    show nodeAll pUniq (.mk nm d cc ct mt newCh) = true
    rw [nodeAll_split, Bool.and_eq_true]
    constructor
    · rw [pUniq_children_names nm d cc ct mt ch newCh (writeChildren_names now n c _ newCh hw)]
      exact hsplit.1
    · exact writeChildren_listAll_uniq now n c ch newCh hsplit.2 hw

theorem uniq_setChildren_delete (n : String) (cur : Node)
    (newCh : List Node) (hcur : nodeAll pUniq cur = true)
    (hd : deleteChildren n cur.children = some newCh) :
    nodeAll pUniq (setChildren newCh cur) = true := by
  cases cur with
  | mk nm d cc ct mt ch =>
    have hsplit := Bool.and_eq_true .. |>.mp (nodeAll_split pUniq nm d cc ct mt ch ▸ hcur)
    show nodeAll pUniq (.mk nm d cc ct mt newCh) = true
    rw [nodeAll_split, Bool.and_eq_true]
    constructor
    · have hdist : namesDistinct (ch.map Node.name) = true := by
        simpa [pUniq, Node.children] using hsplit.1
      have : namesDistinct (newCh.map Node.name) = true :=
        deleteChildren_names_distinct n ch newCh hdist hd
      simpa [pUniq, Node.children] using this
    · exact listAll_sub pUniq ch newCh hsplit.2 (deleteChildren_mem n ch newCh hd)

theorem dirsEmpty_setChildren_write (now : Nat) (n c : String) (cur : Node)
    (newCh : List Node) (hcur : nodeAll pDirEmpty cur = true)
    (hw : writeChildren now n c cur.children = some newCh) :
    nodeAll pDirEmpty (setChildren newCh cur) = true := by
  cases cur with
  | mk nm d cc ct mt ch =>
    have hsplit := Bool.and_eq_true .. |>.mp (nodeAll_split pDirEmpty nm d cc ct mt ch ▸ hcur)
    show nodeAll pDirEmpty (.mk nm d cc ct mt newCh) = true
    rw [nodeAll_split, Bool.and_eq_true]
    exact ⟨hsplit.1, writeChildren_listAll_dirsEmpty now n c ch newCh hsplit.2 hw⟩

theorem dirsEmpty_setChildren_delete (n : String) (cur : Node)
    (newCh : List Node) (hcur : nodeAll pDirEmpty cur = true)
    (hd : deleteChildren n cur.children = some newCh) :
    nodeAll pDirEmpty (setChildren newCh cur) = true := by
  cases cur with
  | mk nm d cc ct mt ch =>
    have hsplit := Bool.and_eq_true .. |>.mp (nodeAll_split pDirEmpty nm d cc ct mt ch ▸ hcur)
    show nodeAll pDirEmpty (.mk nm d cc ct mt newCh) = true
    rw [nodeAll_split, Bool.and_eq_true]
    exact ⟨hsplit.1, listAll_sub pDirEmpty ch newCh hsplit.2 (deleteChildren_mem n ch newCh hd)⟩

theorem uniq_applyOp (fs : FS) (now : Nat) (op : Op)
    (h : nodeAll pUniq fs.root = true) :
    nodeAll pUniq (applyOp fs now op).root = true := by
  cases op with
  | mkFile n c =>
    show nodeAll pUniq (FS.createFile fs now n c).2.root = true
    cases hg : getNode fs.root fs.cwd with
    | none => rw [FS.createFile_eq_noget fs now n c hg]; exact h
    | some cur =>
      cases hh : hasChildNamed n cur.children
      · rw [FS.createFile_eq_success fs now n c cur hg hh]
        refine nodeAll_updateAt pUniq _ (fun x => appendChild_name _ x)
          pUniq_children_names fs.cwd fs.root h ?_
        intro nd hnd
        rw [hg] at hnd
        injection hnd with he
        subst he
        exact uniq_appendChild cur _ hh (nodeAll_leaf pUniq n false c now now rfl)
          (nodeAll_getNode pUniq fs.cwd fs.root cur h hg)
      · rw [FS.createFile_eq_dup fs now n c cur hg hh]
        exact h
  | mkDir n =>
    show nodeAll pUniq (FS.createDirectory fs now n).2.root = true
    cases hg : getNode fs.root fs.cwd with
    | none => rw [FS.createDirectory_eq_noget fs now n hg]; exact h
    | some cur =>
      cases hh : hasChildNamed n cur.children
      · rw [FS.createDirectory_eq_success fs now n cur hg hh]
        refine nodeAll_updateAt pUniq _ (fun x => appendChild_name _ x)
          pUniq_children_names fs.cwd fs.root h ?_
        intro nd hnd
        rw [hg] at hnd
        injection hnd with he
        subst he
        exact uniq_appendChild cur _ hh (nodeAll_leaf pUniq n true "" now now rfl)
          (nodeAll_getNode pUniq fs.cwd fs.root cur h hg)
      · rw [FS.createDirectory_eq_dup fs now n cur hg hh]
        exact h
  | wr n c =>
    show nodeAll pUniq (FS.writeFile fs now n c).2.root = true
    cases hg : getNode fs.root fs.cwd with
    | none => rw [FS.writeFile_eq_noget fs now n c hg]; exact h
    | some cur =>
      cases hw : writeChildren now n c cur.children with
      | none => rw [FS.writeFile_eq_fail fs now n c cur hg hw]; exact h
      | some newCh =>
        rw [FS.writeFile_eq_success fs now n c cur newCh hg hw]
        refine nodeAll_updateAt pUniq _ (fun x => setChildren_name _ x)
          pUniq_children_names fs.cwd fs.root h ?_
        intro nd hnd
        rw [hg] at hnd
        injection hnd with he
        subst he
        exact uniq_setChildren_write now n c cur newCh
          (nodeAll_getNode pUniq fs.cwd fs.root cur h hg) hw
  | del n =>
    show nodeAll pUniq (FS.deleteFile fs n).2.root = true
    cases hg : getNode fs.root fs.cwd with
    | none => rw [FS.deleteFile_eq_noget fs n hg]; exact h
    | some cur =>
      cases hd : deleteChildren n cur.children with
      | none => rw [FS.deleteFile_eq_fail fs n cur hg hd]; exact h
      | some newCh =>
        rw [FS.deleteFile_eq_success fs n cur newCh hg hd]
        refine nodeAll_updateAt pUniq _ (fun x => setChildren_name _ x)
          pUniq_children_names fs.cwd fs.root h ?_
        intro nd hnd
        rw [hg] at hnd
        injection hnd with he
        subst he
        exact uniq_setChildren_delete n cur newCh
          (nodeAll_getNode pUniq fs.cwd fs.root cur h hg) hd
  | cd t =>
    show nodeAll pUniq (FS.changeDirectory fs t).2.root = true
    rw [FS.changeDirectory_root fs t]
    exact h

theorem dirsEmpty_applyOp (fs : FS) (now : Nat) (op : Op)
    (h : nodeAll pDirEmpty fs.root = true) :
    nodeAll pDirEmpty (applyOp fs now op).root = true := by
  cases op with
  | mkFile n c =>
    show nodeAll pDirEmpty (FS.createFile fs now n c).2.root = true
    cases hg : getNode fs.root fs.cwd with
    | none => rw [FS.createFile_eq_noget fs now n c hg]; exact h
    | some cur =>
      cases hh : hasChildNamed n cur.children
      · rw [FS.createFile_eq_success fs now n c cur hg hh]
        refine nodeAll_updateAt pDirEmpty _ (fun x => appendChild_name _ x)
          pDirEmpty_children_names fs.cwd fs.root h ?_
        intro nd hnd
        rw [hg] at hnd
        injection hnd with he
        subst he
        exact dirsEmpty_appendChild cur _ (nodeAll_leaf pDirEmpty n false c now now rfl)
          (nodeAll_getNode pDirEmpty fs.cwd fs.root cur h hg)
      · rw [FS.createFile_eq_dup fs now n c cur hg hh]
        exact h
  | mkDir n =>
    show nodeAll pDirEmpty (FS.createDirectory fs now n).2.root = true
    cases hg : getNode fs.root fs.cwd with
    | none => rw [FS.createDirectory_eq_noget fs now n hg]; exact h
    | some cur =>
      cases hh : hasChildNamed n cur.children
      · rw [FS.createDirectory_eq_success fs now n cur hg hh]
        refine nodeAll_updateAt pDirEmpty _ (fun x => appendChild_name _ x)
          pDirEmpty_children_names fs.cwd fs.root h ?_
        intro nd hnd
        rw [hg] at hnd
        injection hnd with he
        subst he
        exact dirsEmpty_appendChild cur _ (nodeAll_leaf pDirEmpty n true "" now now rfl)
          (nodeAll_getNode pDirEmpty fs.cwd fs.root cur h hg)
      · rw [FS.createDirectory_eq_dup fs now n cur hg hh]
        exact h
  | wr n c =>
    show nodeAll pDirEmpty (FS.writeFile fs now n c).2.root = true
    cases hg : getNode fs.root fs.cwd with
    | none => rw [FS.writeFile_eq_noget fs now n c hg]; exact h
    | some cur =>
      cases hw : writeChildren now n c cur.children with
      | none => rw [FS.writeFile_eq_fail fs now n c cur hg hw]; exact h
      | some newCh =>
        rw [FS.writeFile_eq_success fs now n c cur newCh hg hw]
        refine nodeAll_updateAt pDirEmpty _ (fun x => setChildren_name _ x)
          pDirEmpty_children_names fs.cwd fs.root h ?_
        intro nd hnd
        rw [hg] at hnd
        injection hnd with he
        subst he
        exact dirsEmpty_setChildren_write now n c cur newCh
          (nodeAll_getNode pDirEmpty fs.cwd fs.root cur h hg) hw
  | del n =>
    show nodeAll pDirEmpty (FS.deleteFile fs n).2.root = true
    cases hg : getNode fs.root fs.cwd with
    | none => rw [FS.deleteFile_eq_noget fs n hg]; exact h
    | some cur =>
      cases hd : deleteChildren n cur.children with
      | none => rw [FS.deleteFile_eq_fail fs n cur hg hd]; exact h
      | some newCh =>
        rw [FS.deleteFile_eq_success fs n cur newCh hg hd]
        refine nodeAll_updateAt pDirEmpty _ (fun x => setChildren_name _ x)
          pDirEmpty_children_names fs.cwd fs.root h ?_
        intro nd hnd
        rw [hg] at hnd
        injection hnd with he
        subst he
        exact dirsEmpty_setChildren_delete n cur newCh
          (nodeAll_getNode pDirEmpty fs.cwd fs.root cur h hg) hd
  | cd t =>
    show nodeAll pDirEmpty (FS.changeDirectory fs t).2.root = true
    rw [FS.changeDirectory_root fs t]
    exact h

theorem uniq_applyOps : ∀ (ops : List (Nat × Op)) (fs : FS),
    nodeAll pUniq fs.root = true → nodeAll pUniq (applyOps fs ops).root = true
  | [], _fs, h => h
  | (t, op) :: rest, fs, h =>
    uniq_applyOps rest (applyOp fs t op) (uniq_applyOp fs t op h)

theorem dirsEmpty_applyOps : ∀ (ops : List (Nat × Op)) (fs : FS),
    nodeAll pDirEmpty fs.root = true →
    nodeAll pDirEmpty (applyOps fs ops).root = true
  | [], _fs, h => h
  | (t, op) :: rest, fs, h =>
    dirsEmpty_applyOps rest (applyOp fs t op) (dirsEmpty_applyOp fs t op h)

theorem nodeAll_self (p : Node → Bool) (n : Node) (h : nodeAll p n = true) :
    p n = true := by
  cases n with
  | mk nm d c ct mt ch =>
    exact (Bool.and_eq_true .. |>.mp (nodeAll_split p nm d c ct mt ch ▸ h)).1

theorem nodeAll_children (p : Node → Bool) (n : Node) (h : nodeAll p n = true) :
    listAll p n.children = true := by
  cases n with
  | mk nm d c ct mt ch =>
    exact (Bool.and_eq_true .. |>.mp (nodeAll_split p nm d c ct mt ch ▸ h)).2

/-- C8: creating an entry whose name already exists among the cursor's
children fails — for `createFile` and `createDirectory` alike — and returns
the state exactly as it was, so the existing entry (kind, content,
timestamps, position among the children) is untouched; and sibling names
are unique after every operation sequence from a fresh file system. -/
theorem C8_duplicate_create_fails_and_names_unique
    (fs : FS) (now : Nat) (n c : String) (cur : Node) (t0 : Nat)
    (ops : List (Nat × Op))
    (hg : getNode fs.root fs.cwd = some cur)
    (hex : ∃ ch ∈ cur.children, ch.name = n) :
    FS.createFile fs now n c = (false, fs) ∧
    FS.createDirectory fs now n = (false, fs) ∧
    namesUniqueB (applyOps (FS.init t0) ops).root = true := by
  have hh : hasChildNamed n cur.children = true :=
    (hasChildNamed_exists_iff n cur.children).mpr hex
  exact ⟨FS.createFile_eq_dup fs now n c cur hg hh,
    FS.createDirectory_eq_dup fs now n cur hg hh,
    uniq_applyOps ops (FS.init t0) (nodeAll_leaf pUniq "root" true "" t0 t0 rfl)⟩

/-- C8 witness: after creating file "a", a second create of "a" (as file or
directory) fails and changes nothing; names stay unique along a concrete
operation sequence that retries duplicate names. -/
theorem C8_witness :
    FS.createFile ((FS.createFile (FS.init 0) 1 "a" "x").2) 2 "a" "y"
      = (false, (FS.createFile (FS.init 0) 1 "a" "x").2) ∧
    FS.createDirectory ((FS.createFile (FS.init 0) 1 "a" "x").2) 2 "a"
      = (false, (FS.createFile (FS.init 0) 1 "a" "x").2) ∧
    namesUniqueB (applyOps (FS.init 0)
      [(1, Op.mkFile "a" "x"), (2, Op.mkFile "a" "y"), (3, Op.mkDir "a")]).root = true :=
  C8_duplicate_create_fails_and_names_unique
    ((FS.createFile (FS.init 0) 1 "a" "x").2) 2 "a" "y"
    (Node.mk "root" true "" 0 0 [Node.mk "a" false "x" 1 1 []]) 0
    [(1, Op.mkFile "a" "x"), (2, Op.mkFile "a" "y"), (3, Op.mkDir "a")]
    rfl (by decide)

theorem infoChildren_dirEmpty (nm : String) :
    ∀ (l : List Node), listAll pDirEmpty l = true →
      Option.all (fun dsc => !dsc.isDirectory || dsc.size == 0)
        (infoChildren nm l) = true
  | [], _ => rfl
  | c :: cs, hall => by
    have hsplit := Bool.and_eq_true .. |>.mp
      (show (nodeAll pDirEmpty c && listAll pDirEmpty cs) = true from hall)
    unfold infoChildren
    cases hm : c.name == nm
    · rw [if_neg Bool.false_ne_true]
      exact infoChildren_dirEmpty nm cs hsplit.2
    · rw [if_pos rfl]
      show (!c.isDirectory || c.content.length == 0) = true
      have hp : pDirEmpty c = true := nodeAll_self pDirEmpty c hsplit.1
      cases hd : c.isDirectory
      · simp [hd]
      · rw [pDirEmpty, hd] at hp
        simp only [Bool.not_true, Bool.false_or] at hp
        have hc : c.content = "" := by simpa using hp
        simp [hd, hc]

/-- C10: every directory node of the tree has empty content after any
operation sequence from a fresh file system (nodes are constructed with
empty content and `writeFile` never matches a directory), and consequently
`fileInfo`, which reports `Size` as the content length for both kinds,
reports size 0 whenever the described entry is a directory. -/
theorem C10_directories_empty_content_size_zero (t0 : Nat)
    (ops : List (Nat × Op)) (nm : String) :
    dirsEmptyB (applyOps (FS.init t0) ops).root = true ∧
    Option.all (fun dsc => !dsc.isDirectory || dsc.size == 0)
      (FS.fileInfo (applyOps (FS.init t0) ops) nm) = true := by
  have hinv : nodeAll pDirEmpty (applyOps (FS.init t0) ops).root = true :=
    dirsEmpty_applyOps ops (FS.init t0)
      (nodeAll_leaf pDirEmpty "root" true "" t0 t0
        (by simp [pDirEmpty, Node.isDirectory, Node.content]))
  refine ⟨hinv, ?_⟩
  unfold FS.fileInfo
  cases hg : getNode (applyOps (FS.init t0) ops).root (applyOps (FS.init t0) ops).cwd with
  | none => rfl
  | some cur =>
    show Option.all (fun dsc => !dsc.isDirectory || dsc.size == 0)
      (infoChildren nm cur.children) = true
    exact infoChildren_dirEmpty nm cur.children
      (nodeAll_children pDirEmpty cur
        (nodeAll_getNode pDirEmpty _ _ cur hinv hg))

/-!
## C3 (amended): the create operations perform no name validation
-/

/-- C3 (amended): `createFile` and `createDirectory` never validate the
name — there is no `InvalidName` check anywhere — so a call with ANY name,
the empty string and names containing the separator `/` included, succeeds
whenever no sibling carries that exact name, and appends a child carrying
that literal name to the current directory. -/
theorem C3_amended_creates_never_validate_names (fs : FS) (now : Nat)
    (name content : String) (cur : Node)
    (hg : getNode fs.root fs.cwd = some cur)
    (hno : ∀ ch ∈ cur.children, ch.name ≠ name) :
    (FS.createFile fs now name content).1 = true ∧
    getNode (FS.createFile fs now name content).2.root fs.cwd
      = some (appendChild (Node.mk name false content now now []) cur) ∧
    (FS.createDirectory fs now name).1 = true ∧
    getNode (FS.createDirectory fs now name).2.root fs.cwd
      = some (appendChild (Node.new name true now) cur) := by
  have hh : hasChildNamed name cur.children = false := by
    cases hch : hasChildNamed name cur.children
    · rfl
    · rcases (hasChildNamed_exists_iff name cur.children).mp hch with ⟨ch, hcm, he⟩
      exact absurd he (hno ch hcm)
  refine ⟨?_, ?_, ?_, ?_⟩
  · rw [FS.createFile_eq_success fs now name content cur hg hh]
  · rw [FS.createFile_eq_success fs now name content cur hg hh]
    exact getNode_updateAt _ fs.cwd fs.root cur hg
  · rw [FS.createDirectory_eq_success fs now name cur hg hh]
  · rw [FS.createDirectory_eq_success fs now name cur hg hh]
    exact getNode_updateAt _ fs.cwd fs.root cur hg

/-- C3 witness: a name containing the separator (`"a/b"`) and the empty
name are both accepted by the create operations on a fresh file system. -/
theorem C3_amended_witness :
    ((FS.createFile (FS.init 0) 1 "a/b" "").1 = true ∧
      getNode (FS.createFile (FS.init 0) 1 "a/b" "").2.root (FS.init 0).cwd
        = some (appendChild (Node.mk "a/b" false "" 1 1 [])
            (Node.mk "root" true "" 0 0 [])) ∧
      (FS.createDirectory (FS.init 0) 1 "a/b").1 = true ∧
      getNode (FS.createDirectory (FS.init 0) 1 "a/b").2.root (FS.init 0).cwd
        = some (appendChild (Node.new "a/b" true 1) (Node.mk "root" true "" 0 0 []))) ∧
    ((FS.createFile (FS.init 0) 1 "" "").1 = true ∧
      getNode (FS.createFile (FS.init 0) 1 "" "").2.root (FS.init 0).cwd
        = some (appendChild (Node.mk "" false "" 1 1 [])
            (Node.mk "root" true "" 0 0 [])) ∧
      (FS.createDirectory (FS.init 0) 1 "").1 = true ∧
      getNode (FS.createDirectory (FS.init 0) 1 "").2.root (FS.init 0).cwd
        = some (appendChild (Node.new "" true 1) (Node.mk "root" true "" 0 0 []))) :=
  ⟨C3_amended_creates_never_validate_names (FS.init 0) 1 "a/b" ""
      (Node.mk "root" true "" 0 0 []) rfl (by decide),
   C3_amended_creates_never_validate_names (FS.init 0) 1 "" ""
      (Node.mk "root" true "" 0 0 []) rfl (by decide)⟩

/-!
## C5 (amended): path composition after createDirectory + changeDirectory
-/

theorem appendChild_children (x n : Node) :
    (appendChild x n).children = n.children ++ [x] := by
  cases n; rfl

theorem findDirIdx_append (n : String) (d : Node) (hd : d.name = n)
    (hdir : d.isDirectory = true) :
    ∀ (l : List Node), (∀ ch ∈ l, ch.name ≠ n) →
      findDirIdx n (l ++ [d]) = some l.length
  | [], _ => by
    show findDirIdx n [d] = some 0
    unfold findDirIdx
    rw [if_pos (by rw [hd, hdir]; simp)]
  | c :: cs, hno => by
    show findDirIdx n (c :: (cs ++ [d])) = some (cs.length + 1)
    unfold findDirIdx
    have hc : (c.name == n && c.isDirectory) = false := by
      have : c.name ≠ n := hno c (List.mem_cons_self c cs)
      simp [this]
    rw [if_neg (by rw [hc]; simp)]
    rw [findDirIdx_append n d hd hdir cs
      (fun ch hch => hno ch (List.mem_cons_of_mem c hch))]
    rfl

theorem namesAlong_isSome : ∀ (p : List Nat) (r cur : Node),
    getNode r p = some cur → ∃ parts, namesAlong r p = some parts
  | [], r, cur, _ => ⟨[], rfl⟩
  | i :: p, r, cur, hg => by
    cases hc : r.children[i]? with
    | none =>
      unfold getNode at hg
      rw [hc] at hg
      exact absurd hg (by simp)
    | some child =>
      unfold getNode at hg
      simp only [hc] at hg
      rcases namesAlong_isSome p child cur hg with ⟨parts, hp⟩
      refine ⟨child.name :: parts, ?_⟩
      unfold namesAlong
      simp only [hc, hp, Option.map_some']

theorem namesAlong_updateAt (f : Node → Node) (hname : ∀ x, (f x).name = x.name) :
    ∀ (pth : List Nat) (r : Node),
      namesAlong (updateAt f r pth) pth = namesAlong r pth
  | [], _ => rfl
  | i :: pth, .mk nm d c ct mt ch => by
    unfold updateAt
    cases hc : ch[i]? with
    | none => rfl
    | some child =>
      unfold namesAlong
      simp only [Node.children]
      have hlen : i < ch.length := get?_lt hc
      rw [List.getElem?_set_self hlen, hc]
      show ((namesAlong (updateAt f child pth) pth).map ((updateAt f child pth).name :: ·))
          = ((namesAlong child pth).map (child.name :: ·))
      rw [namesAlong_updateAt f hname pth child, updateAt_name f hname pth child]

theorem namesAlong_snoc : ∀ (p : List Nat) (r cur c : Node) (i : Nat)
    (parts : List String),
    namesAlong r p = some parts → getNode r p = some cur →
    cur.children[i]? = some c →
    namesAlong r (p ++ [i]) = some (parts ++ [c.name])
  | [], r, cur, c, i, parts, hn, hg, hc => by
    have hp : parts = [] := by
      have : (some [] : Option (List String)) = some parts := hn
      injection this with he
      exact he.symm
    subst hp
    simp only [getNode] at hg
    cases hg
    show namesAlong r [i] = some [c.name]
    unfold namesAlong
    rw [hc]
    rfl
  | j :: p, r, cur, c, i, parts, hn, hg, hc => by
    cases hj : r.children[j]? with
    | none =>
      unfold namesAlong at hn
      rw [hj] at hn
      exact absurd hn (by simp)
    | some child =>
      unfold namesAlong at hn
      unfold getNode at hg
      simp only [hj] at hn hg
      cases hnp : namesAlong child p with
      | none =>
        rw [hnp] at hn
        exact absurd hn (by simp)
      | some parts2 =>
        rw [hnp] at hn
        simp only [Option.map_some'] at hn
        cases hn
        show namesAlong r (j :: (p ++ [i])) = some (child.name :: (parts2 ++ [c.name]))
        unfold namesAlong
        simp only [hj, namesAlong_snoc p child cur c i parts2 hnp hg hc,
          Option.map_some']

theorem namesAlong_nil_iff : ∀ (p : List Nat) (r : Node) (parts : List String),
    namesAlong r p = some parts → (p = [] ↔ parts = [])
  | [], r, parts, h => by
    have : (some [] : Option (List String)) = some parts := h
    injection this with he
    simp [← he]
  | i :: p, r, parts, h => by
    cases hc : r.children[i]? with
    | none =>
      unfold namesAlong at h
      rw [hc] at h
      exact absurd h (by simp)
    | some child =>
      unfold namesAlong at h
      simp only [hc] at h
      cases hnp : namesAlong child p with
      | none => rw [hnp] at h; exact absurd h (by simp)
      | some parts2 =>
        rw [hnp] at h
        simp only [Option.map_some'] at h
        cases h
        simp

theorem joinSep_snoc : ∀ (xs : List String) (y : String),
    joinSep (xs ++ [y]) = (if xs = [] then "" else joinSep xs ++ "/") ++ y
  | [], y => by simp [joinSep]
  | [a], y => by
    show joinSep [a, y] = _
    simp [joinSep]
  | a :: b :: rest, y => by
    show joinSep (a :: ((b :: rest) ++ [y])) = _
    have : joinSep (a :: ((b :: rest) ++ [y]))
        = a ++ "/" ++ joinSep ((b :: rest) ++ [y]) := rfl
    rw [this, joinSep_snoc (b :: rest) y]
    simp [joinSep, String.append_assoc]

theorem hasChildNamed_false_of (name : String) (l : List Node)
    (hno : ∀ ch ∈ l, ch.name ≠ name) : hasChildNamed name l = false := by
  cases hch : hasChildNamed name l
  · rfl
  · rcases (hasChildNamed_exists_iff name l).mp hch with ⟨ch, hcm, he⟩
    exact absurd he (hno ch hcm)

/-- C5 (amended): the current path is exactly `"/"` at the root and
otherwise `"/"` followed by the cursor's name chain joined with `"/"` (no
trailing slash); and for every valid directory name `n`,
`createDirectory(n)` followed by `changeDirectory(n)` yields the previous
path concatenated with `"/" ++ n` when the cursor was NOT the root, and
`"/" ++ n` (not `"/" ++ "/" ++ n`) when it was the root — the previous
path `"/"` contributes no separator of its own. -/
theorem C5_amended_path_of_create_then_cd (r : Node) (fs : FS) (now : Nat)
    (n : String) (cur : Node) (parts : List String)
    (hg : getNode fs.root fs.cwd = some cur)
    (hparts : namesAlong fs.root fs.cwd = some parts)
    (hno : ∀ ch ∈ cur.children, ch.name ≠ n)
    (h1 : (n == "..") = false) (h2 : (n == "/") = false) :
    FS.getCurrentPath ⟨r, []⟩ = "/" ∧
    FS.getCurrentPath fs = "/" ++ joinSep parts ∧
    (FS.createDirectory fs now n).1 = true ∧
    (FS.changeDirectory (FS.createDirectory fs now n).2 n).1 = true ∧
    FS.getCurrentPath (FS.changeDirectory (FS.createDirectory fs now n).2 n).2
      = (if fs.cwd = [] then "" else FS.getCurrentPath fs) ++ "/" ++ n := by
  have hh : hasChildNamed n cur.children = false := hasChildNamed_false_of n cur.children hno
  have hcre := FS.createDirectory_eq_success fs now n cur hg hh
  have hcp : FS.getCurrentPath fs = "/" ++ joinSep parts := by
    unfold FS.getCurrentPath
    simp only [hparts]
  have hg1 : getNode (updateAt (appendChild (Node.new n true now)) fs.root fs.cwd) fs.cwd
      = some (appendChild (Node.new n true now) cur) :=
    getNode_updateAt _ fs.cwd fs.root cur hg
  have hf : findDirIdx n (appendChild (Node.new n true now) cur).children
      = some cur.children.length := by
    rw [appendChild_children]
    exact findDirIdx_append n (Node.new n true now) rfl rfl cur.children hno
  have hs1 : (FS.createDirectory fs now n).2
      = { fs with root := updateAt (appendChild (Node.new n true now)) fs.root fs.cwd } := by
    rw [hcre]
  have hcd : FS.changeDirectory (FS.createDirectory fs now n).2 n
      = (true, { fs with
          root := updateAt (appendChild (Node.new n true now)) fs.root fs.cwd,
          cwd := fs.cwd ++ [cur.children.length] }) := by
    rw [hs1]
    exact FS.changeDirectory_eq_child _ n (appendChild (Node.new n true now) cur)
      cur.children.length h1 h2 hg1 hf
  refine ⟨?_, hcp, by rw [hcre], by rw [hcd], ?_⟩
  · show (match namesAlong r [] with
      | some parts => "/" ++ joinSep parts
      | none => "/") = "/"
    show "/" ++ joinSep [] = "/"
    simp [joinSep]
  · rw [hcd]
    have hn1 : namesAlong (updateAt (appendChild (Node.new n true now)) fs.root fs.cwd) fs.cwd
        = some parts := by
      rw [namesAlong_updateAt (appendChild (Node.new n true now))
        (fun x => appendChild_name _ x) fs.cwd fs.root]
      exact hparts
    have hchild : (appendChild (Node.new n true now) cur).children[cur.children.length]?
        = some (Node.new n true now) := by
      rw [appendChild_children]
      exact List.getElem?_concat_length cur.children (Node.new n true now)
    have hsn : namesAlong (updateAt (appendChild (Node.new n true now)) fs.root fs.cwd)
        (fs.cwd ++ [cur.children.length]) = some (parts ++ [n]) :=
      namesAlong_snoc fs.cwd _ (appendChild (Node.new n true now) cur)
        (Node.new n true now) cur.children.length parts hn1 hg1 hchild
    unfold FS.getCurrentPath
    simp only [hsn, hparts]
    rw [joinSep_snoc]
    have hiff := namesAlong_nil_iff fs.cwd fs.root parts hparts
    by_cases hc0 : fs.cwd = []
    · have hp0 : parts = [] := hiff.mp hc0
      subst hp0
      rw [if_pos rfl, if_pos hc0]
      simp
    · have hp0 : parts ≠ [] := fun hq => hc0 (hiff.mpr hq)
      rw [if_neg hp0, if_neg hc0]
      simp [String.append_assoc]

/-- C5 witness: from a fresh file system (path `"/"`), `createDirectory "a"`
then `changeDirectory "a"` yields path `"/" ++ "a"` = `"/a"`. -/
theorem C5_amended_witness :
    FS.getCurrentPath ⟨Node.mk "x" false "" 0 0 [], []⟩ = "/" ∧
    FS.getCurrentPath (FS.init 0) = "/" ++ joinSep [] ∧
    (FS.createDirectory (FS.init 0) 1 "a").1 = true ∧
    (FS.changeDirectory (FS.createDirectory (FS.init 0) 1 "a").2 "a").1 = true ∧
    FS.getCurrentPath (FS.changeDirectory (FS.createDirectory (FS.init 0) 1 "a").2 "a").2
      = (if (FS.init 0).cwd = [] then "" else FS.getCurrentPath (FS.init 0)) ++ "/" ++ "a" :=
  C5_amended_path_of_create_then_cd (Node.mk "x" false "" 0 0 []) (FS.init 0) 1 "a"
    (Node.mk "root" true "" 0 0 []) [] rfl rfl (by decide) (by decide) (by decide)

/-!
## C2 (amended): characterization of searchFile
-/

/-- The accumulated search path for a chain of ancestor names: every name
followed by a `/`. -/
def withSlashes : List String → String
  | [] => ""
  | x :: xs => (x ++ "/") ++ withSlashes xs

theorem withSlashes_eq : ∀ (xs : List String),
    withSlashes xs = (if xs = [] then "" else joinSep xs ++ "/")
  | [] => rfl
  | [a] => by simp [withSlashes, joinSep]
  | a :: b :: rest => by
    show (a ++ "/") ++ withSlashes (b :: rest) = _
    rw [withSlashes_eq (b :: rest)]
    have hbr : (b :: rest) ≠ ([] : List String) := by simp
    have habr : (a :: b :: rest) ≠ ([] : List String) := by simp
    rw [if_neg hbr, if_neg habr]
    show (a ++ "/") ++ (joinSep (b :: rest) ++ "/")
        = (a ++ "/" ++ joinSep (b :: rest)) ++ "/"
    simp [String.append_assoc]

theorem joinSep_eq_withSlashes (xs : List String) (y : String) :
    joinSep (xs ++ [y]) = withSlashes xs ++ y := by
  rw [joinSep_snoc, withSlashes_eq]

theorem withSlashes_snoc : ∀ (xs : List String) (y : String),
    withSlashes (xs ++ [y]) = withSlashes xs ++ (y ++ "/")
  | [], y => by simp [withSlashes]
  | x :: xs, y => by
    show (x ++ "/") ++ withSlashes (xs ++ [y])
        = ((x ++ "/") ++ withSlashes xs) ++ (y ++ "/")
    rw [withSlashes_snoc xs y]
    simp [String.append_assoc]

mutual
/-- All nodes of a subtree in depth-first pre-order, each paired with its
chain of names from the top of the traversal down to the node itself. -/
def preNode (pre : List String) : Node → List (List String × Node)
  | .mk nm d c ct mt ch =>
    (pre ++ [nm], .mk nm d c ct mt ch) :: preChildren (pre ++ [nm]) ch

def preChildren (pre : List String) : List Node → List (List String × Node)
  | [] => []
  | c :: cs => preNode pre c ++ preChildren pre cs
end

/-- Specification-side description of `search`, written from the spec's
search sentence with the result paths amended to what the code produces:
take the pre-order traversal of the whole tree from the root, keep exactly
the File nodes whose name contains the term as a case-sensitive substring,
and render each kept node as its chain of node names — beginning with the
root node's own name — joined with `/`. -/
def searchSpec (root : Node) (term : String) : List String :=
  ((preNode [] root).filter
    (fun pr => strContains pr.2.name term && !pr.2.isDirectory)).map
    (fun pr => joinSep pr.1)

mutual
theorem searchNode_spec (term : String) : ∀ (n : Node) (pre : List String),
    searchNode term (withSlashes pre) n
      = ((preNode pre n).filter
          (fun pr => strContains pr.2.name term && !pr.2.isDirectory)).map
          (fun pr => joinSep pr.1)
  | .mk nm d c ct mt ch, pre => by
    unfold searchNode preNode
    rw [List.filter_cons]
    simp only [Node.name, Node.isDirectory]
    have hpath : (withSlashes pre ++ nm) ++ "/" = withSlashes (pre ++ [nm]) := by
      rw [withSlashes_snoc, String.append_assoc]
    cases hm : strContains nm term && !d
    · rw [if_neg Bool.false_ne_true, if_neg Bool.false_ne_true]
      rw [List.nil_append, hpath]
      exact searchChildren_spec term ch (pre ++ [nm])
    · rw [if_pos rfl, if_pos rfl]
      rw [List.map_cons]
      show (withSlashes pre ++ nm) :: searchChildren term ((withSlashes pre ++ nm) ++ "/") ch
          = joinSep (pre ++ [nm]) :: _
      rw [joinSep_eq_withSlashes, hpath]
      rw [searchChildren_spec term ch (pre ++ [nm])]
      exact rfl

theorem searchChildren_spec (term : String) : ∀ (l : List Node) (pre : List String),
    searchChildren term (withSlashes pre) l
      = ((preChildren pre l).filter
          (fun pr => strContains pr.2.name term && !pr.2.isDirectory)).map
          (fun pr => joinSep pr.1)
  | [], _ => rfl
  | c :: cs, pre => by
    unfold searchChildren preChildren
    rw [List.filter_append, List.map_append]
    rw [searchNode_spec term c pre, searchChildren_spec term cs pre]
end

/-- C2 (amended): `searchFile` always searches the whole tree from the
root — the result does not depend on the cursor — in depth-first pre-order;
it matches exactly the File nodes whose name contains the term as a
case-sensitive substring (Directory nodes never match), and records for
each match the chain of node names from the root down to the match joined
with `/`.  That chain begins with the root node's literal name `"root"`,
not with the parent's absolute path (which would begin with `/`).  When
nothing matches the result is the empty list, not an error. -/
theorem C2_search_global_preorder_files_substring (r : Node)
    (cwd cwd2 : List Nat) (term : String) :
    FS.searchFile ⟨r, cwd⟩ term = FS.searchFile ⟨r, cwd2⟩ term ∧
    FS.searchFile ⟨r, cwd⟩ term = searchSpec r term := by
  constructor
  · rfl
  · show searchNode term "" r = searchSpec r term
    exact searchNode_spec term r []
